import Mathlib

/-!
# The `/calc` HTTP server of `http_server_.c`

A shallow embedding of the request handling code of `http_server_.c` and
theorems about it.

Conventions of the embedding.

* A byte is a `Nat` (the value of the `unsigned char`), a buffer is a
  `List Nat`.  A pointer into a NUL-terminated buffer is the list of the bytes
  from the pointer on; reading at or past the end of the list reads the
  terminator `0`.
* `long long` is an `Int`; `acc += val` and `acc -= val` wrap modulo `2^64`
  (two's complement), which is what the usual compilers produce for the signed
  overflow that C leaves undefined.
* Loops whose termination is not structural carry a fuel argument and return
  `none` when it runs out; the callers supply enough fuel and the theorems
  below show that a result is always produced.
* `malloc`, `read` and `write` are taken to succeed: the handler is modelled
  from the point where `buf` holds the bytes read, and the response writer
  returns the bytes it hands to `write`.
* `send_response_and_close` returns `none` when it reads past the end of its
  array `header`, which C leaves undefined.
-/

namespace HttpServer

/-! ## Bytes and C strings -/

/-- Bytes of an ASCII string literal. -/
def bytes (s : String) : List Nat := s.toList.map Char.toNat

/-- The C string held in a buffer: the bytes before the first NUL. -/
def cstr (buf : List Nat) : List Nat := buf.takeWhile (fun b => b != 0)

/-- The `strlen` of the C library. -/
def strlen (s : List Nat) : Nat := (cstr s).length

/-- The `isspace` of `<ctype.h>` in the C locale: space, `\t`, `\n`, `\v`, `\f`, `\r`. -/
def isspace (c : Nat) : Bool := c == 32 || (decide (9 ≤ c) && decide (c ≤ 13))

/-- The `isdigit` of `<ctype.h>`. -/
def isdigit (c : Nat) : Bool := decide (48 ≤ c) && decide (c ≤ 57)

/-- The `isxdigit` of `<ctype.h>`. -/
def isxdigit (c : Nat) : Bool :=
  isdigit c || (decide (65 ≤ c) && decide (c ≤ 70)) || (decide (97 ≤ c) && decide (c ≤ 102))

/-! ## `strtoll` and `strtol` -/

/-- Largest `long long`. -/
def LLONG_MAX : Int := 9223372036854775807

/-- Smallest `long long`. -/
def LLONG_MIN : Int := -9223372036854775808

/-- Value of a digit character in `strtol`: `0-9`, `a-z`, `A-Z`. -/
def digit_value (c : Nat) : Nat :=
  if isdigit c then c - 48 else if 97 ≤ c then c - 87 else c - 55

/-- Value of a run of digit characters read left to right in the given base. -/
def digits_value (base : Nat) (ds : List Nat) : Nat :=
  ds.foldl (fun acc c => base * acc + digit_value c) 0

/-- What a call of `strtoll`/`strtol` leaves behind: the returned value, the
text at `*endptr`, whether a conversion took place (`endptr != nptr`) and
whether `errno` was set to `ERANGE`. -/
structure StrtolResult where
  value : Int
  endptr : List Nat
  converted : Bool
  erange : Bool
deriving DecidableEq, Repr

/-- The text after an optional sign character. -/
def skip_sign (s : List Nat) : List Nat :=
  match s with
  | 43 :: t => t
  | 45 :: t => t
  | _ => s

/-- Whether the text starts with a minus sign. -/
def has_minus (s : List Nat) : Bool :=
  match s with
  | 45 :: _ => true
  | _ => false

/-- The `strtoll(nptr, &endptr, 10)` of the C library: leading white space is
skipped, then an optional sign and the longest run of decimal digits are
read.  Without a digit no conversion is performed and `endptr = nptr`.  A
value outside the range of `long long` is clamped and `errno` becomes
`ERANGE`. -/
def strtoll (nptr : List Nat) : StrtolResult :=
  let s := nptr.dropWhile isspace
  let s1 := skip_sign s
  let ds := s1.takeWhile isdigit
  if ds.isEmpty then
    { value := 0, endptr := nptr, converted := false, erange := false }
  else
    let m : Int := (digits_value 10 ds : Nat)
    let v : Int := if has_minus s then -m else m
    let rest := s1.dropWhile isdigit
    if v > LLONG_MAX then
      { value := LLONG_MAX, endptr := rest, converted := true, erange := true }
    else if v < LLONG_MIN then
      { value := LLONG_MIN, endptr := rest, converted := true, erange := true }
    else
      { value := v, endptr := rest, converted := true, erange := false }

/-- The text after an optional `0x` or `0X`, which base 16 accepts when a
hexadecimal digit follows it. -/
def skip_hex_marker (s : List Nat) : List Nat :=
  match s with
  | 48 :: x :: d :: t => if (x == 120 || x == 88) && isxdigit d then d :: t else s
  | _ => s

/-- The value returned by `strtol(nptr, NULL, 16)` (with a 64-bit `long`). -/
def strtol16 (nptr : List Nat) : Int :=
  let s := nptr.dropWhile isspace
  let s1 := skip_hex_marker (skip_sign s)
  let m : Int := (digits_value 16 (s1.takeWhile isxdigit) : Nat)
  let v : Int := if has_minus s then -m else m
  if v > LLONG_MAX then LLONG_MAX else if v < LLONG_MIN then LLONG_MIN else v

/-- The conversion `(char) v`, as the byte stored. -/
def cast_char (v : Int) : Nat := (v % 256).toNat

/-! ## `url_decode` -/

/-- The loop of `url_decode`: `p` is the offset of the read pointer in `s`,
`out` the bytes written through `d` so far. -/
def url_decode_loop (s : List Nat) : Nat → Nat → List Nat → Option (List Nat)
  | 0, _, _ => none
  | fuel + 1, p, out =>
    if s.getD p 0 = 0 then some out
    else if s.getD p 0 = 37 ∧ isxdigit (s.getD (p + 1) 0) = true
        ∧ isxdigit (s.getD (p + 2) 0) = true then
      url_decode_loop s fuel (p + 2 + 1)
        (out ++ [cast_char (strtol16 [s.getD (p + 1) 0, s.getD (p + 2) 0, 0])])
    else
      url_decode_loop s fuel (p + 1) (out ++ [s.getD p 0])

/-- The function `url_decode`: the bytes written to the output buffer before
its terminator.  The result is `none` only when the loop is out of fuel. -/
def url_decode (s : List Nat) : Option (List Nat) :=
  url_decode_loop s (strlen s + 1) 0 []

/-! ## `eval_simple_expression` -/

/-- Two's complement wrap to 64 bits. -/
def wrap64 (x : Int) : Int := (x + 2 ^ 63) % 2 ^ 64 - 2 ^ 63

/-- The `while (*p)` loop of `eval_simple_expression`.  The result is the
returned code together with the content of `*out_result` afterwards. -/
def eval_loop : Nat → Int → List Nat → Int → Option (Int × Int)
  | 0, _, _, _ => none
  | fuel + 1, acc, p, out_result =>
    if p.headD 0 = 0 then some (0, acc)
    else
      let p1 := p.dropWhile isspace
      let op := p1.headD 0
      if op ≠ 43 ∧ op ≠ 45 then some (-1, out_result)
      else
        let p2 := p1.tail.dropWhile isspace
        if p2.headD 0 = 0 then some (-1, out_result)
        else
          let r := strtoll p2
          if r.converted = false then some (-1, out_result)
          else if r.erange = true then some (-1, out_result)
          else
            eval_loop fuel
              (if op = 43 then wrap64 (acc + r.value) else wrap64 (acc - r.value))
              r.endptr out_result

/-- The function `eval_simple_expression(expr, out_result)`: the returned code
(`0` or `-1`) and the content of `*out_result` after the call, given its
content before the call. -/
def eval_simple_expression (expr : List Nat) (out_result : Int) : Option (Int × Int) :=
  let r := strtoll expr
  if r.converted = false then some (-1, out_result)
  else if r.erange = true then some (-1, out_result)
  else eval_loop (expr.length + 1) r.value r.endptr out_result

/-! ## The request handler of `main` -/

/-- A `%Ns` conversion once white space is skipped: at most `width` bytes that
are not white space. -/
def scan_token : Nat → List Nat → List Nat × List Nat
  | 0, s => ([], s)
  | _ + 1, [] => ([], [])
  | w + 1, c :: cs =>
    if isspace c then ([], c :: cs)
    else ((c :: (scan_token w cs).1), (scan_token w cs).2)

/-- A `%Ns` conversion of `sscanf`: white space is skipped, and the conversion
fails when the input ends there. -/
def conv_s (width : Nat) (input : List Nat) : Option (List Nat × List Nat) :=
  let s := input.dropWhile isspace
  if s.isEmpty then none else some (scan_token width s)

/-- The call `sscanf(buf, "%15s %1023s %31s", method, path, proto)`: the
returned count and the content of the three zero-initialised arrays. -/
def sscanf_request_line (buf : List Nat) : Int × List Nat × List Nat × List Nat :=
  match conv_s 15 (cstr buf) with
  | none => (-1, [], [], [])
  | some (method, r1) =>
    match conv_s 1023 (r1.dropWhile isspace) with
    | none => (1, method, [], [])
    | some (path, r2) =>
      match conv_s 31 (r2.dropWhile isspace) with
      | none => (2, method, path, [])
      | some (proto, _) => (3, method, path, proto)

/-- The `strcmp` of the C library; the end of a list is the terminator. -/
def strcmp : List Nat → List Nat → Int
  | [], [] => 0
  | [], b :: _ => 0 - (b : Int)
  | a :: _, [] => (a : Int)
  | a :: s, b :: t =>
    if a ≠ b then (a : Int) - (b : Int) else if a = 0 then 0 else strcmp s t

/-- The `strstr` of the C library on NUL-free texts: the text from the first
occurrence of `needle` on, `none` for a null pointer. -/
def strstr : List Nat → List Nat → Option (List Nat)
  | [], needle => if needle.isEmpty then some [] else none
  | c :: cs, needle =>
    if needle.isPrefixOf (c :: cs) then some (c :: cs) else strstr cs needle

/-- The loop of `main` that copies the query value into `qval`; `i` is the
index reached. -/
def copy_qval : Nat → List Nat → List Nat
  | _, [] => []
  | i, c :: cs =>
    if c ≠ 0 ∧ c ≠ 32 ∧ c ≠ 38 ∧ i + 1 < 1024 then c :: copy_qval (i + 1) cs else []

/-- The decimal representation of an integer, as the format `%lld` prints it. -/
def fmt_lld (v : Int) : List Nat :=
  if v < 0 then 45 :: (Nat.toDigits 10 v.natAbs).map Char.toNat
  else (Nat.toDigits 10 v.natAbs).map Char.toNat

/-- The text that `snprintf(body, size, "%lld", v)` leaves in `body`: at most
`size - 1` characters of the decimal representation. -/
def snprintf_lld (size : Nat) (v : Int) : List Nat := (fmt_lld v).take (size - 1)

/-- The arguments of a call of `send_response_and_close`. -/
structure Response where
  status_code : Nat
  status_text : List Nat
  body : List Nat
deriving DecidableEq, Repr

/-- One round of the loop of `main` from the point where `buf` holds the bytes
read from the connection: the response sent.  The local `result` is not
initialised in the source; its content before the call is taken to be `0`, a
value that is read only after `eval_simple_expression` has overwritten it. -/
def main_handle (buf : List Nat) : Option Response :=
  let r := sscanf_request_line buf
  if r.1 ≠ 3 then
    some ⟨400, bytes "Bad Request", bytes "invalid request-line"⟩
  else if strcmp r.2.1 (bytes "GET") ≠ 0 then
    some ⟨405, bytes "Method Not Allowed", bytes "only GET allowed"⟩
  else
    match strstr r.2.2.1 (bytes "/calc?") with
    | none => some ⟨404, bytes "Not Found", bytes "expected /calc?query=..."⟩
    | some _ =>
      match strstr r.2.2.1 (bytes "query=") with
      | none => some ⟨400, bytes "Bad Request", bytes "missing query parameter"⟩
      | some query_str =>
        let qval := copy_qval 0 (query_str.drop (strlen (bytes "query=")))
        match url_decode qval with
        | none => some ⟨500, bytes "Internal Server Error", bytes "url decode failed"⟩
        | some decoded =>
          match eval_simple_expression decoded 0 with
          | none => none
          | some (rc, result) =>
            if rc ≠ 0 then some ⟨400, bytes "Bad Request", bytes "invalid expression"⟩
            else some ⟨200, bytes "OK", snprintf_lld 64 result⟩

/-! ## Reference notions taken from the specification -/

/-- Value of a hexadecimal digit, upper or lower case. -/
def hexval (c : Nat) : Nat :=
  if 48 ≤ c ∧ c ≤ 57 then c - 48
  else if 65 ≤ c ∧ c ≤ 70 then c - 65 + 10
  else c - 97 + 10

/-- The reference percent-decoder of the specification: scanning left to
right, a `%` followed by two hexadecimal digits yields the byte they denote and
the scan advances three positions; any other character is emitted unchanged
and the scan advances one position. -/
def decode_ref : List Nat → List Nat
  | [] => []
  | [c] => [c]
  | [c, a] => c :: decode_ref [a]
  | c :: a :: b :: rest =>
    if c = 37 ∧ isxdigit a = true ∧ isxdigit b = true then
      (16 * hexval a + hexval b) :: decode_ref rest
    else c :: decode_ref (a :: b :: rest)

/-- An optionally signed decimal integer literal: the sign (`none`, or
`some false` for `+`, or `some true` for `-`), the first digit and the
remaining digits. -/
structure Literal where
  sign : Option Bool
  first : Fin 10
  more : List (Fin 10)
deriving DecidableEq, Repr

/-- The characters of the sign of a literal. -/
def sign_text : Option Bool → List Nat
  | none => []
  | some false => [43]
  | some true => [45]

/-- The characters of a run of decimal digits. -/
def digits_text (ds : List (Fin 10)) : List Nat := ds.map (fun d => 48 + d.val)

/-- The natural number written by a run of decimal digits. -/
def digits_number (ds : List (Fin 10)) : Nat := ds.foldl (fun acc d => 10 * acc + d.val) 0

/-- The characters of a literal. -/
def Literal.text (l : Literal) : List Nat := sign_text l.sign ++ digits_text (l.first :: l.more)

/-- The integer a literal denotes. -/
def Literal.value (l : Literal) : Int :=
  if l.sign = some true then -(digits_number (l.first :: l.more) : Int)
  else (digits_number (l.first :: l.more) : Int)

/-- The two operators of the expression grammar. -/
inductive Op where
  | add
  | sub
deriving DecidableEq, Repr

/-- The character of an operator. -/
def Op.byte : Op → Nat
  | Op.add => 43
  | Op.sub => 45

/-- The mathematical meaning of an operator. -/
def Op.apply : Op → Int → Int → Int
  | Op.add, x, y => x + y
  | Op.sub, x, y => x - y

/-- The white-space characters of `isspace`. -/
inductive Ws where
  | space
  | tab
  | newline
  | vtab
  | formfeed
  | cr
deriving DecidableEq, Repr

/-- The character of a white-space character. -/
def Ws.byte : Ws → Nat
  | Ws.space => 32
  | Ws.tab => 9
  | Ws.newline => 10
  | Ws.vtab => 11
  | Ws.formfeed => 12
  | Ws.cr => 13

/-- The characters of a run of white space. -/
def ws_text (l : List Ws) : List Nat := l.map Ws.byte

/-- An operator and its right operand, with the white space before and after
the operator. -/
structure Step where
  before : List Ws
  op : Op
  after : List Ws
  operand : Literal
deriving DecidableEq, Repr

/-- An operator and its right operand without white space. -/
def step (o : Op) (b : Literal) : Step := ⟨[], o, [], b⟩

/-- The characters of a sequence of operator-operand pairs. -/
def pairs_text : List Step → List Nat
  | [] => []
  | p :: r =>
    ws_text p.before ++ p.op.byte :: (ws_text p.after ++ (p.operand.text ++ pairs_text r))

/-- The characters of the expression `a (op b)*`, white space allowed around the
operators. -/
def expr_text (a : Literal) (rest : List Step) : List Nat := a.text ++ pairs_text rest

/-- The mathematical left-to-right sum and difference of the operands. -/
def fold_value (acc : Int) : List Step → Int
  | [] => acc
  | p :: r => fold_value (p.op.apply acc p.operand.value) r

/-- A value in the range of a signed 64-bit integer. -/
def fits64 (v : Int) : Prop := LLONG_MIN ≤ v ∧ v ≤ LLONG_MAX

instance (v : Int) : Decidable (fits64 v) := by unfold fits64; infer_instance

/-- Every operand of the pairs is in the signed 64-bit range. -/
def operands_fit (rest : List Step) : Prop := ∀ p ∈ rest, fits64 p.operand.value

/-- Every partial result of folding the pairs into `acc` is in the signed
64-bit range. -/
def sums_fit (acc : Int) : List Step → Prop
  | [] => True
  | p :: r =>
    fits64 (p.op.apply acc p.operand.value) ∧ sums_fit (p.op.apply acc p.operand.value) r

/-- Whether a text begins with an optional sign followed by a decimal digit. -/
def begins_with_integer : List Nat → Bool
  | [] => false
  | [c] => isdigit c
  | c :: d :: _ => isdigit c || ((c == 43 || c == 45) && isdigit d)

/-- The white-space separated tokens of a text, at most `fuel` of them. -/
def tokens_fuel : Nat → List Nat → List (List Nat)
  | 0, _ => []
  | fuel + 1, s =>
    if (s.dropWhile isspace).isEmpty then []
    else
      (s.dropWhile isspace).takeWhile (fun c => !isspace c) ::
        tokens_fuel fuel ((s.dropWhile isspace).dropWhile (fun c => !isspace c))

/-- The white-space separated tokens of a text (a text has no more tokens than
characters). -/
def tokens (s : List Nat) : List (List Nat) := tokens_fuel s.length s

/-- What `strtoll` returns for a conversion that read the value `v` and
stopped at `t`. -/
def strtoll_outcome (v : Int) (t : List Nat) : StrtolResult :=
  if v > LLONG_MAX then
    { value := LLONG_MAX, endptr := t, converted := true, erange := true }
  else if v < LLONG_MIN then
    { value := LLONG_MIN, endptr := t, converted := true, erange := true }
  else
    { value := v, endptr := t, converted := true, erange := false }

/-- The accumulator after folding the pairs into `acc` with 64-bit wrap. -/
def wrap_fold (acc : Int) : List Step → Int
  | [] => acc
  | p :: r => wrap_fold (wrap64 (p.op.apply acc p.operand.value)) r

instance decidable_operands_fit (rest : List Step) : Decidable (operands_fit rest) := by
  unfold operands_fit; infer_instance

instance decidable_sums_fit : (acc : Int) → (rest : List Step) →
    Decidable (sums_fit acc rest)
  | _, [] => isTrue trivial
  | acc, p :: r =>
    @instDecidableAnd _ _ inferInstance (decidable_sums_fit (p.op.apply acc p.operand.value) r)

/-- The literal `9223372036854775807`, the largest signed 64-bit integer. -/
def llong_max_literal : Literal :=
  ⟨none, 9, [2, 2, 3, 3, 7, 2, 0, 3, 6, 8, 5, 4, 7, 7, 5, 8, 0, 7]⟩

/-- The literal `99999999999999999999`. -/
def huge_literal : Literal :=
  ⟨none, 9, [9, 9, 9, 9, 9, 9, 9, 9, 9, 9, 9, 9, 9, 9, 9, 9, 9, 9, 9]⟩

/-- A one-digit literal without sign. -/
def digit_literal (d : Fin 10) : Literal := ⟨none, d, []⟩

/-- The operator-operand pairs of the expression `1+2-3+4`. -/
def sample_steps : List Step :=
  [step Op.add (digit_literal 2), step Op.sub (digit_literal 3), step Op.add (digit_literal 4)]

/-- A query value of 1012 characters: 1011 zeros followed by `1`. -/
def long_zero_query : List Nat := List.replicate 1011 48 ++ [49]

/-- Lines 193 to 214 of `main`: the response to the query value `qval`. -/
def main_evaluate (qval : List Nat) : Option Response :=
  match url_decode qval with
  | none => some ⟨500, bytes "Internal Server Error", bytes "url decode failed"⟩
  | some decoded =>
    match eval_simple_expression decoded 0 with
    | none => none
    | some (rc, result) =>
      if rc ≠ 0 then some ⟨400, bytes "Bad Request", bytes "invalid expression"⟩
      else some ⟨200, bytes "OK", snprintf_lld 64 result⟩

/-- The characters copied by the loop of `main` when the cap on the index
plays no part. -/
def copy_uncapped (t : List Nat) : List Nat :=
  t.takeWhile (fun c => c != 0 && c != 32 && c != 38)

/-- The loop of `url_decode` with the offsets in `s` of the bytes it reads, in
the order of the reads: the loop test `*p`, the tests `*p == '%'`,
`isxdigit(p[1])` and `isxdigit(p[2])` with the short circuit of `&&`, then
either the initialiser of `hex` or the copy `*d++ = *p`. -/
def url_decode_trace (s : List Nat) :
    Nat → Nat → List Nat → List Nat → Option (List Nat × List Nat)
  | 0, _, _, _ => none
  | fuel + 1, p, out, reads =>
    if s.getD p 0 = 0 then some (out, reads ++ [p])
    else if s.getD p 0 ≠ 37 then
      url_decode_trace s fuel (p + 1) (out ++ [s.getD p 0]) (reads ++ [p, p, p])
    else if isxdigit (s.getD (p + 1) 0) = false then
      url_decode_trace s fuel (p + 1) (out ++ [s.getD p 0]) (reads ++ [p, p, p + 1, p])
    else if isxdigit (s.getD (p + 2) 0) = false then
      url_decode_trace s fuel (p + 1) (out ++ [s.getD p 0])
        (reads ++ [p, p, p + 1, p + 2, p])
    else
      url_decode_trace s fuel (p + 2 + 1)
        (out ++ [cast_char (strtol16 [s.getD (p + 1) 0, s.getD (p + 2) 0, 0])])
        (reads ++ [p, p, p + 1, p + 2, p + 1, p + 2])

/-- The output of `url_decode` together with the offsets read in `s`. -/
def url_decode_reads (s : List Nat) : Option (List Nat × List Nat) :=
  url_decode_trace s (strlen s + 1) 0 [] []

/-- An argument of a call of the `printf` family. -/
inductive PrintfArg where
  | int (v : Int)
  | str (s : List Nat)
  | size (n : Nat)
deriving DecidableEq, Repr

/-- The output of `%zu`: the decimal representation of a `size_t`. -/
def fmt_zu (n : Nat) : List Nat := (Nat.toDigits 10 n).map Char.toNat

/-- The text a `printf` format produces, for the directives `%d`, `%s` and
`%zu` of the program; any other character of the format is copied. -/
def printf_text : List Nat → List PrintfArg → List Nat
  | [], _ => []
  | 37 :: 100 :: fmt, PrintfArg.int v :: args => fmt_lld v ++ printf_text fmt args
  | 37 :: 115 :: fmt, PrintfArg.str s :: args => cstr s ++ printf_text fmt args
  | 37 :: 122 :: 117 :: fmt, PrintfArg.size n :: args => fmt_zu n ++ printf_text fmt args
  | c :: fmt, args => c :: printf_text fmt args

/-- The function `send_response_and_close(sock, status_code, status_text,
body)`: the bytes written to the socket, `body` being `none` for a null
pointer.  `snprintf` stores at most 511 characters and a terminator in
`header` and returns the length `n` of the whole text; `write(sock, header, n)`
then reads `n` bytes of the 512 bytes of `header`.  The result is `none` when
that read goes past the end of `header`, which C leaves undefined.  Both calls
of `write` are taken to write all their bytes. -/
def send_response_and_close (status_code : Int) (status_text : List Nat)
    (body : Option (List Nat)) : Option (List Nat) :=
  let bodylen := match body with
    | some b => strlen b
    | none => 0
  let text := printf_text
    (bytes "HTTP/1.1 %d %s\r\nContent-Length: %zu\r\nContent-Type: text/plain\r\n\r\n")
    [PrintfArg.int status_code, PrintfArg.str status_text, PrintfArg.size bodylen]
  let n := text.length
  let header := text.take 511 ++ [0]
  if n ≤ 512 then
    some (header.take n ++
      (if bodylen > 0 then (match body with
        | some b => b.take bodylen
        | none => []) else []))
  else none

/-- The end of a line of the response. -/
def crlf : List Nat := [13, 10]

/-- The header of a response as the specification gives it: the status line,
the `Content-Length` line, the `Content-Type` line and an empty line. -/
def response_header (code : Int) (phrase : List Nat) (n : Nat) : List Nat :=
  bytes "HTTP/1.1 " ++ fmt_lld code ++ [32] ++ phrase ++ crlf
    ++ bytes "Content-Length: " ++ fmt_lld (n : Int) ++ crlf
    ++ bytes "Content-Type: text/plain" ++ crlf ++ crlf

/-- The bytes of a body: none for a null pointer. -/
def body_bytes (body : Option (List Nat)) : List Nat :=
  match body with
  | some b => cstr b
  | none => []

/-- A status phrase of 500 characters `A`. -/
def long_phrase : List Nat := List.replicate 500 65

/-- One pass through the body of the `while (*p)` loop of
`eval_simple_expression`, lines 47 to 61, entered with the accumulator `acc`
and the pointer `p`: `none` when the pass ends in `return -1`, otherwise the
accumulator and the pointer at the end of the pass. -/
def eval_body (acc : Int) (p : List Nat) : Option (Int × List Nat) :=
  let p1 := p.dropWhile isspace
  let op := p1.headD 0
  if op ≠ 43 ∧ op ≠ 45 then none
  else
    let p2 := p1.tail.dropWhile isspace
    if p2.headD 0 = 0 then none
    else
      let r := strtoll p2
      if r.converted = false then none
      else if r.erange = true then none
      else some (if op = 43 then wrap64 (acc + r.value) else wrap64 (acc - r.value), r.endptr)

/-- The accumulator and the pointer of the `while (*p)` loop after `k` passes,
started with `acc` and `p`: `none` when the loop has left before, because the
test `*p` failed or a pass returned `-1`. -/
def loop_state : Nat → Int → List Nat → Option (Int × List Nat)
  | 0, acc, p => some (acc, p)
  | k + 1, acc, p =>
    if p.headD 0 = 0 then none
    else
      match eval_body acc p with
      | none => none
      | some (acc1, p1) => loop_state k acc1 p1

/-! ## Percent-decoding: the loop against the reference decoder -/

theorem isxdigit_lt (a : Nat) (h : isxdigit a = true) : a < 103 := by
  simp [isxdigit, isdigit] at h
  omega

set_option maxRecDepth 100000 in
theorem hex_pair_table : ∀ a < 103, ∀ b < 103, isxdigit a = true → isxdigit b = true →
    cast_char (strtol16 [a, b, 0]) = 16 * hexval a + hexval b := by
  decide!

theorem getD_drop_add (s : List Nat) (p k : Nat) : s.getD (p + k) 0 = (s.drop p).getD k 0 := by
  simp [List.getD_eq_getElem?_getD, List.getElem?_drop]


theorem cstr_nil : cstr [] = [] := rfl

theorem cstr_cons (c : Nat) (t : List Nat) :
    cstr (c :: t) = if c = 0 then [] else c :: cstr t := by
  by_cases h : c = 0 <;> simp [cstr, List.takeWhile_cons, h]

theorem cstr_eq_self (s : List Nat) (h : 0 ∉ s) : cstr s = s := by
  induction s with
  | nil => rfl
  | cons c t ih =>
    simp only [List.mem_cons, not_or] at h
    rw [cstr_cons, if_neg (fun e => h.1 e.symm), ih h.2]

theorem isxdigit_ne_zero (a : Nat) (h : isxdigit a = true) : a ≠ 0 := by
  rintro rfl; simp [isxdigit, isdigit] at h

theorem decode_ref_cons (c : Nat) (r : List Nat) :
    decode_ref (c :: r) =
      if c = 37 ∧ isxdigit (r.getD 0 0) = true ∧ isxdigit (r.getD 1 0) = true then
        (16 * hexval (r.getD 0 0) + hexval (r.getD 1 0)) :: decode_ref (r.drop 2)
      else c :: decode_ref r := by
  match r with
  | [] => simp [decode_ref, isxdigit, isdigit]
  | [a] => simp [decode_ref, isxdigit, isdigit]
  | a :: b :: rest => simp [decode_ref]

theorem url_decode_loop_spec (s : List Nat) :
    ∀ (fuel p : Nat) (out : List Nat), (cstr (s.drop p)).length < fuel →
      url_decode_loop s fuel p out = some (out ++ decode_ref (cstr (s.drop p))) := by
  intro fuel
  induction fuel with
  | zero => intro p out h; omega
  | succ n ih =>
    intro p out h
    have h0 : s.getD p 0 = (s.drop p).getD 0 0 := getD_drop_add s p 0
    have h1 : s.getD (p + 1) 0 = (s.drop p).getD 1 0 := getD_drop_add s p 1
    have h2 : s.getD (p + 2) 0 = (s.drop p).getD 2 0 := getD_drop_add s p 2
    have hd1 : s.drop (p + 1) = (s.drop p).drop 1 := by rw [List.drop_drop, Nat.add_comm]
    have hd3 : s.drop (p + 2 + 1) = (s.drop p).drop 3 := by
      rw [List.drop_drop]
    rw [url_decode_loop, h0, h1, h2]
    generalize s.drop p = t at h h0 h1 h2 hd1 hd3
    match t with
    | [] => simp [cstr_nil, decode_ref]
    | c :: t1 =>
      by_cases hc : c = 0
      · simp [hc, cstr_cons, decode_ref]
      · simp only [List.getD_cons_zero, hc, if_false, List.getD_cons_succ]
        rw [cstr_cons, if_neg hc] at h ⊢
        simp only [List.length_cons] at h
        by_cases hx : c = 37 ∧ isxdigit (t1.getD 0 0) = true ∧ isxdigit (t1.getD 1 0) = true
        · rw [if_pos hx]
          obtain ⟨hc37, ha, hb⟩ := hx
          match t1, ha, hb with
          | [], ha, _ => simp [isxdigit, isdigit] at ha
          | [a], _, hb => simp [isxdigit, isdigit] at hb
          | a :: b :: t2, ha, hb =>
            simp only [List.getD_cons_zero, List.getD_cons_succ] at ha hb ⊢
            have hlen : (cstr (s.drop (p + 2 + 1))).length < n := by
              rw [hd3]
              simp only [List.drop_succ_cons, List.drop_zero]
              rw [cstr_cons, if_neg (isxdigit_ne_zero a ha), cstr_cons,
                if_neg (isxdigit_ne_zero b hb)] at h
              simp only [List.length_cons] at h
              omega
            rw [ih _ _ hlen, hd3]
            simp only [List.drop_succ_cons, List.drop_zero]
            rw [cstr_cons, if_neg (isxdigit_ne_zero a ha), cstr_cons,
              if_neg (isxdigit_ne_zero b hb), decode_ref_cons]
            simp only [List.getD_cons_zero, List.getD_cons_succ, hc37, ha, hb, and_self,
              if_true, List.drop_succ_cons, List.drop_zero]
            rw [hex_pair_table a (isxdigit_lt a ha) b (isxdigit_lt b hb) ha hb]
            simp
        · rw [if_neg hx]
          have hlen : (cstr (s.drop (p + 1))).length < n := by
            rw [hd1]; simp only [List.drop_succ_cons, List.drop_zero]; omega
          rw [ih _ _ hlen, hd1]
          simp only [List.drop_succ_cons, List.drop_zero]
          rw [decode_ref_cons]
          have hx2 : ¬ (c = 37 ∧ isxdigit ((cstr t1).getD 0 0) = true
              ∧ isxdigit ((cstr t1).getD 1 0) = true) := by
            rintro ⟨e, ha, hb⟩
            apply hx
            match t1, ha, hb with
            | [], ha, _ => simp [cstr_nil, isxdigit, isdigit] at ha
            | a :: t2, ha, hb =>
              by_cases ha0 : a = 0
              · subst ha0; simp [cstr_cons, isxdigit, isdigit] at ha
              · rw [cstr_cons, if_neg ha0] at ha hb
                simp only [List.getD_cons_zero, List.getD_cons_succ] at ha hb ⊢
                refine ⟨e, ha, ?_⟩
                match t2, hb with
                | [], hb => simp [cstr_nil, isxdigit, isdigit] at hb
                | b :: t3, hb =>
                  by_cases hb0 : b = 0
                  · subst hb0; simp [cstr_cons, isxdigit, isdigit] at hb
                  · rw [cstr_cons, if_neg hb0] at hb
                    simpa using hb
          rw [if_neg hx2]
          simp

theorem url_decode_eq (s : List Nat) : url_decode s = some (decode_ref (cstr s)) := by
  have h := url_decode_loop_spec s (strlen s + 1) 0 [] (by simp [strlen])
  simpa [url_decode] using h

/-! ## `strtoll` on literals -/

theorem digit_char_isdigit (d : Fin 10) : isdigit (48 + d.val) = true := by
  have := d.isLt
  simp [isdigit]; omega

theorem digit_char_not_space (d : Fin 10) : isspace (48 + d.val) = false := by
  have := d.isLt
  simp [isspace]; omega

theorem digit_char_value (d : Fin 10) : digit_value (48 + d.val) = d.val := by
  simp [digit_value, digit_char_isdigit]

theorem takeWhile_isdigit_stop (t : List Nat) (h : isdigit (t.headD 0) = false) :
    t.takeWhile isdigit = [] := by
  cases t with
  | nil => rfl
  | cons c t => simp only [List.headD_cons] at h; simp [List.takeWhile_cons, h]

theorem dropWhile_isdigit_stop (t : List Nat) (h : isdigit (t.headD 0) = false) :
    t.dropWhile isdigit = t := by
  cases t with
  | nil => rfl
  | cons c t => simp only [List.headD_cons] at h; simp [List.dropWhile_cons, h]

theorem takeWhile_digits_text (ds : List (Fin 10)) (t : List Nat)
    (h : isdigit (t.headD 0) = false) :
    (digits_text ds ++ t).takeWhile isdigit = digits_text ds := by
  induction ds with
  | nil => simpa [digits_text] using takeWhile_isdigit_stop t h
  | cons d ds ih =>
    simp only [digits_text, List.map_cons, List.cons_append] at ih ⊢
    rw [List.takeWhile_cons, digit_char_isdigit, if_pos rfl, ih]

theorem dropWhile_digits_text (ds : List (Fin 10)) (t : List Nat)
    (h : isdigit (t.headD 0) = false) :
    (digits_text ds ++ t).dropWhile isdigit = t := by
  induction ds with
  | nil => simpa [digits_text] using dropWhile_isdigit_stop t h
  | cons d ds ih =>
    simp only [digits_text, List.map_cons, List.cons_append] at ih ⊢
    rw [List.dropWhile_cons, digit_char_isdigit, if_pos rfl, ih]

theorem foldl_digits_text (ds : List (Fin 10)) (acc : Nat) :
    (digits_text ds).foldl (fun acc c => 10 * acc + digit_value c) acc
      = ds.foldl (fun acc d => 10 * acc + d.val) acc := by
  induction ds generalizing acc with
  | nil => rfl
  | cons d ds ih =>
    simp only [digits_text, List.map_cons, List.foldl_cons, digit_char_value] at ih ⊢
    exact ih _

theorem digits_value_text (ds : List (Fin 10)) :
    digits_value 10 (digits_text ds) = digits_number ds :=
  foldl_digits_text ds 0

theorem skip_sign_cons (c : Nat) (t : List Nat) :
    skip_sign (c :: t) = if c = 43 ∨ c = 45 then t else c :: t := by
  unfold skip_sign
  split <;> simp_all

theorem has_minus_cons (c : Nat) (t : List Nat) :
    has_minus (c :: t) = decide (c = 45) := by
  unfold has_minus
  split <;> simp_all

theorem strtoll_of (nptr s s1 ds t : List Nat) (hs : nptr.dropWhile isspace = s)
    (hsk : skip_sign s = s1) (htw : s1.takeWhile isdigit = ds) (hne : ds ≠ [])
    (hdw : s1.dropWhile isdigit = t) :
    strtoll nptr =
      strtoll_outcome
        (if has_minus s = true then -((digits_value 10 ds : Nat) : Int)
          else ((digits_value 10 ds : Nat) : Int)) t := by
  subst hs hsk htw hdw
  have hne2 : (List.takeWhile isdigit (skip_sign (List.dropWhile isspace nptr))).isEmpty
      = false := by
    cases hh : List.takeWhile isdigit (skip_sign (List.dropWhile isspace nptr)) with
    | nil => exact absurd hh hne
    | cons a b => rfl
  unfold strtoll strtoll_outcome
  simp only [hne2]
  rfl

theorem strtoll_literal (l : Literal) (t : List Nat) (h : isdigit (t.headD 0) = false) :
    strtoll (l.text ++ t) = strtoll_outcome l.value t := by
  obtain ⟨sg, d, ds⟩ := l
  have hs := digit_char_not_space d
  have hlt := d.isLt
  have htw := takeWhile_digits_text (d :: ds) t h
  have hdw := dropWhile_digits_text (d :: ds) t h
  have hne : digits_text (d :: ds) ≠ [] := by simp [digits_text]
  have hv := digits_value_text (d :: ds)
  have e2 : digits_text (d :: ds) ++ t = (48 + d.val) :: (digits_text ds ++ t) := by
    simp [digits_text]
  match sg with
  | none =>
    have e : (Literal.mk none d ds).text ++ t = digits_text (d :: ds) ++ t := by
      simp [Literal.text, sign_text]
    have hsk : skip_sign (digits_text (d :: ds) ++ t) = digits_text (d :: ds) ++ t := by
      rw [e2, skip_sign_cons, if_neg (by omega)]
    have hm : has_minus (digits_text (d :: ds) ++ t) = false := by
      rw [e2, has_minus_cons]; simp; omega
    have hsp : (digits_text (d :: ds) ++ t).dropWhile isspace = digits_text (d :: ds) ++ t := by
      rw [e2, List.dropWhile_cons, hs]; rfl
    rw [e, strtoll_of _ _ _ _ _ hsp hsk htw hne hdw, hm, hv]
    simp [Literal.value]
  | some false =>
    have e : (Literal.mk (some false) d ds).text ++ t = 43 :: (digits_text (d :: ds) ++ t) := by
      simp [Literal.text, sign_text]
    have hsp : (43 :: (digits_text (d :: ds) ++ t)).dropWhile isspace
        = 43 :: (digits_text (d :: ds) ++ t) := by
      rw [List.dropWhile_cons]; rfl
    rw [e, strtoll_of _ _ _ _ _ hsp rfl htw hne hdw, hv]
    simp [Literal.value, has_minus]
  | some true =>
    have e : (Literal.mk (some true) d ds).text ++ t = 45 :: (digits_text (d :: ds) ++ t) := by
      simp [Literal.text, sign_text]
    have hsp : (45 :: (digits_text (d :: ds) ++ t)).dropWhile isspace
        = 45 :: (digits_text (d :: ds) ++ t) := by
      rw [List.dropWhile_cons]; rfl
    rw [e, strtoll_of _ _ _ _ _ hsp rfl htw hne hdw, hv]
    simp [Literal.value, has_minus]

/-! ## The loop of the evaluator on expressions -/

theorem strtoll_outcome_fits (v : Int) (t : List Nat) (h : fits64 v) :
    strtoll_outcome v t = { value := v, endptr := t, converted := true, erange := false } := by
  unfold fits64 at h
  unfold strtoll_outcome
  rw [if_neg (by omega), if_neg (by omega)]

theorem strtoll_outcome_unfit (v : Int) (t : List Nat) (h : ¬ fits64 v) :
    (strtoll_outcome v t).converted = true ∧ (strtoll_outcome v t).erange = true := by
  unfold fits64 at h
  unfold strtoll_outcome
  by_cases h1 : v > LLONG_MAX
  · rw [if_pos h1]; exact ⟨rfl, rfl⟩
  · rw [if_neg h1]
    by_cases h2 : v < LLONG_MIN
    · rw [if_pos h2]; exact ⟨rfl, rfl⟩
    · exfalso; apply h; omega

theorem literal_text_head (l : Literal) (t : List Nat) :
    ∃ c r, l.text ++ t = c :: r ∧ isspace c = false ∧ c ≠ 0 := by
  obtain ⟨sg, d, ds⟩ := l
  match sg with
  | none =>
    refine ⟨48 + d.val, digits_text ds ++ t, by simp [Literal.text, sign_text, digits_text],
      digit_char_not_space d, by omega⟩
  | some false =>
    exact ⟨43, digits_text (d :: ds) ++ t, by simp [Literal.text, sign_text], by decide,
      by decide⟩
  | some true =>
    exact ⟨45, digits_text (d :: ds) ++ t, by simp [Literal.text, sign_text], by decide,
      by decide⟩

theorem op_byte_cases (o : Op) : o.byte = 43 ∧ o = Op.add ∨ o.byte = 45 ∧ o = Op.sub := by
  cases o
  · exact Or.inl ⟨rfl, rfl⟩
  · exact Or.inr ⟨rfl, rfl⟩

theorem ws_byte_facts (w : Ws) :
    isspace w.byte = true ∧ w.byte ≠ 0 ∧ isdigit w.byte = false := by
  cases w <;> decide

theorem op_byte_facts (o : Op) :
    isspace o.byte = false ∧ o.byte ≠ 0 ∧ isdigit o.byte = false := by
  cases o <;> decide

theorem dropWhile_ws_text (l : List Ws) (x : List Nat) :
    (ws_text l ++ x).dropWhile isspace = x.dropWhile isspace := by
  induction l with
  | nil => rfl
  | cons w l ih =>
    simp only [ws_text, List.map_cons, List.cons_append] at ih ⊢
    rw [List.dropWhile_cons, (ws_byte_facts w).1, if_pos rfl, ih]

theorem ws_op_head (l : List Ws) (o : Op) (x : List Nat) :
    (ws_text l ++ o.byte :: x).headD 0 ≠ 0
      ∧ isdigit ((ws_text l ++ o.byte :: x).headD 0) = false := by
  cases l with
  | nil => exact ⟨(op_byte_facts o).2.1, (op_byte_facts o).2.2⟩
  | cons w l => exact ⟨(ws_byte_facts w).2.1, (ws_byte_facts w).2.2⟩

theorem pairs_text_head (rest : List Step) (t : List Nat)
    (h : isdigit (t.headD 0) = false) : isdigit ((pairs_text rest ++ t).headD 0) = false := by
  cases rest with
  | nil => simpa [pairs_text] using h
  | cons p r =>
    simp only [pairs_text, List.append_assoc, List.cons_append]
    exact (ws_op_head _ _ _).2

theorem eval_loop_step (n : Nat) (acc : Int) (w1 : List Ws) (o : Op) (w2 : List Ws)
    (b : Literal) (t : List Nat) (out : Int) (h : isdigit (t.headD 0) = false) :
    eval_loop (n + 1) acc (ws_text w1 ++ o.byte :: (ws_text w2 ++ (b.text ++ t))) out =
      if fits64 b.value then eval_loop n (wrap64 (o.apply acc b.value)) t out
      else some (-1, out) := by
  obtain ⟨c, r, hcr, hsp, hc0⟩ := literal_text_head b t
  have hst := strtoll_literal b t h
  rw [hcr] at hst
  have hob := op_byte_facts o
  have hhead := (ws_op_head w1 o (ws_text w2 ++ (b.text ++ t))).1
  have hdw : List.dropWhile isspace (ws_text w1 ++ o.byte :: (ws_text w2 ++ (b.text ++ t)))
      = o.byte :: (ws_text w2 ++ (c :: r)) := by
    rw [dropWhile_ws_text, List.dropWhile_cons, hob.1, hcr]; rfl
  have hdw2 : List.dropWhile isspace (ws_text w2 ++ (c :: r)) = c :: r := by
    rw [dropWhile_ws_text, List.dropWhile_cons, hsp]; rfl
  rw [eval_loop, if_neg hhead]
  simp only [hdw, List.headD_cons, List.tail_cons, hdw2, hst]
  rw [if_neg hc0]
  by_cases hf : fits64 b.value
  · rw [strtoll_outcome_fits _ _ hf, if_pos hf]
    rcases op_byte_cases o with ⟨e, e2⟩ | ⟨e, e2⟩
    · subst e2; simp [Op.byte, Op.apply]
    · subst e2; simp [Op.byte, Op.apply]
  · obtain ⟨h1, h2⟩ := strtoll_outcome_unfit b.value t hf
    rw [if_neg hf]
    have hop : ¬ (o.byte ≠ 43 ∧ o.byte ≠ 45) := by
      rcases op_byte_cases o with ⟨e, _⟩ | ⟨e, _⟩ <;> rw [e] <;> decide
    rw [if_neg hop]
    simp [h1, h2]

theorem eval_loop_pairs (rest : List Step) (t : List Nat) (out : Int)
    (h : isdigit (t.headD 0) = false) :
    ∀ (acc : Int) (fuel : Nat), operands_fit rest →
      eval_loop (fuel + rest.length) acc (pairs_text rest ++ t) out
        = eval_loop fuel (wrap_fold acc rest) t out := by
  induction rest with
  | nil => intro acc fuel _; rfl
  | cons p r ih =>
    intro acc fuel hfit
    have hp : fits64 p.operand.value := hfit p (List.mem_cons_self _ _)
    have hr : operands_fit r := fun q hq => hfit q (List.mem_cons_of_mem _ hq)
    have e : pairs_text (p :: r) ++ t
        = ws_text p.before ++ p.op.byte ::
            (ws_text p.after ++ (p.operand.text ++ (pairs_text r ++ t))) := by
      simp [pairs_text]
    rw [e, List.length_cons, ← Nat.add_assoc,
      eval_loop_step _ _ _ _ _ _ _ _ (pairs_text_head r t h), if_pos hp, ih _ _ hr]
    rfl

theorem eval_loop_pairs_unfit (rest : List Step) (t : List Nat) (out : Int)
    (h : isdigit (t.headD 0) = false) :
    ∀ (acc : Int) (fuel : Nat), ¬ operands_fit rest →
      eval_loop (fuel + rest.length) acc (pairs_text rest ++ t) out = some (-1, out) := by
  induction rest with
  | nil => intro acc fuel hfit; exact absurd (fun p hp => by simp at hp) hfit
  | cons p r ih =>
    intro acc fuel hfit
    have e : pairs_text (p :: r) ++ t
        = ws_text p.before ++ p.op.byte ::
            (ws_text p.after ++ (p.operand.text ++ (pairs_text r ++ t))) := by
      simp [pairs_text]
    rw [e, List.length_cons, ← Nat.add_assoc,
      eval_loop_step _ _ _ _ _ _ _ _ (pairs_text_head r t h)]
    by_cases hp : fits64 p.operand.value
    · rw [if_pos hp]
      apply ih
      intro hr
      apply hfit
      intro q hq
      rcases List.mem_cons.1 hq with rfl | hq
      · exact hp
      · exact hr q hq
    · rw [if_neg hp]

theorem pairs_text_length (rest : List Step) : rest.length ≤ (pairs_text rest).length := by
  induction rest with
  | nil => simp [pairs_text]
  | cons p r ih => simp only [pairs_text, List.length_cons, List.length_append]; omega

theorem wrap64_fits (v : Int) (h : fits64 v) : wrap64 v = v := by
  unfold fits64 LLONG_MIN LLONG_MAX at h
  unfold wrap64
  omega

theorem wrap_fold_eq (rest : List Step) :
    ∀ acc : Int, sums_fit acc rest → wrap_fold acc rest = fold_value acc rest := by
  induction rest with
  | nil => intro acc _; rfl
  | cons p r ih =>
    intro acc h
    obtain ⟨h1, h2⟩ := h
    simp only [wrap_fold, fold_value]
    rw [wrap64_fits _ h1]
    exact ih _ h2

/-- The evaluator on an expression text followed by `t`: what remains to be
done once the operands have been read. -/
theorem eval_expr_text (a : Literal) (rest : List Step) (t : List Nat) (out : Int)
    (h : isdigit (t.headD 0) = false) (ha : fits64 a.value) (hr : operands_fit rest) :
    ∃ k, eval_simple_expression (expr_text a rest ++ t) out
      = eval_loop (k + 1) (wrap_fold a.value rest) t out := by
  have hst := strtoll_literal a (pairs_text rest ++ t) (pairs_text_head rest t h)
  have e : expr_text a rest ++ t = a.text ++ (pairs_text rest ++ t) := by
    simp [expr_text]
  have hlen : rest.length ≤ (expr_text a rest ++ t).length := by
    have := pairs_text_length rest
    simp only [expr_text, List.length_append]; omega
  obtain ⟨k, hk⟩ : ∃ k, (expr_text a rest ++ t).length + 1 = (k + 1) + rest.length :=
    ⟨(expr_text a rest ++ t).length - rest.length, by omega⟩
  refine ⟨k, ?_⟩
  unfold eval_simple_expression
  rw [hk]
  rw [e, hst, strtoll_outcome_fits _ _ ha]
  simp only [Bool.true_eq_false, if_false]
  exact eval_loop_pairs rest t out h _ _ hr

theorem eval_expr_text_unfit (a : Literal) (rest : List Step) (t : List Nat) (out : Int)
    (h : isdigit (t.headD 0) = false) (hu : ¬ fits64 a.value ∨ ¬ operands_fit rest) :
    eval_simple_expression (expr_text a rest ++ t) out = some (-1, out) := by
  have hst := strtoll_literal a (pairs_text rest ++ t) (pairs_text_head rest t h)
  have e : expr_text a rest ++ t = a.text ++ (pairs_text rest ++ t) := by
    simp [expr_text]
  have hlen : rest.length ≤ (expr_text a rest ++ t).length := by
    have := pairs_text_length rest
    simp only [expr_text, List.length_append]; omega
  obtain ⟨k, hk⟩ : ∃ k, (expr_text a rest ++ t).length + 1 = (k + 1) + rest.length :=
    ⟨(expr_text a rest ++ t).length - rest.length, by omega⟩
  unfold eval_simple_expression
  rw [hk, e, hst]
  by_cases ha : fits64 a.value
  · rw [strtoll_outcome_fits _ _ ha]
    simp only [Bool.true_eq_false, if_false]
    rcases hu with hu | hu
    · exact absurd ha hu
    · exact eval_loop_pairs_unfit rest t out h _ _ hu
  · obtain ⟨h1, h2⟩ := strtoll_outcome_unfit a.value (pairs_text rest ++ t) ha
    simp [h1, h2]

/-! ## The decoder and the evaluator: claims -/

theorem decode_ref_no_percent (s : List Nat) (h : 37 ∉ s) : decode_ref s = s := by
  induction s with
  | nil => rfl
  | cons c t ih =>
    simp only [List.mem_cons, not_or] at h
    rw [decode_ref_cons, if_neg (fun e => h.1 e.1.symm), ih h.2]

theorem eval_loop_nil (k : Nat) (acc out : Int) : eval_loop (k + 1) acc [] out = some (0, acc) := by
  simp [eval_loop]

theorem eval_loop_garbage (k : Nat) (acc out : Int) (R : List Nat) (h0 : R.headD 0 ≠ 0)
    (hop : (R.dropWhile isspace).headD 0 ≠ 43 ∧ (R.dropWhile isspace).headD 0 ≠ 45) :
    eval_loop (k + 1) acc R out = some (-1, out) := by
  rw [eval_loop, if_neg h0]
  simp only []
  rw [if_pos hop]

theorem strtoll_no_integer (s : List Nat) (h : begins_with_integer (s.dropWhile isspace) = false) :
    (strtoll s).converted = false := by
  have htw : (skip_sign (s.dropWhile isspace)).takeWhile isdigit = [] := by
    generalize s.dropWhile isspace = u at h
    match u, h with
    | [], _ => rfl
    | [c], h =>
      simp only [begins_with_integer] at h
      rw [skip_sign_cons]
      split <;> simp [List.takeWhile_cons, h]
    | c :: d :: r, h =>
      simp only [begins_with_integer, Bool.or_eq_false_iff] at h
      rw [skip_sign_cons]
      split
      · rename_i hc
        have : (c == 43 || c == 45) = true := by simpa using hc
        rw [this] at h
        have hd : isdigit d = false := by simpa using h.2
        simp [List.takeWhile_cons, hd]
      · simp [List.takeWhile_cons, h.1]
  unfold strtoll
  simp only [htw, List.isEmpty_nil, if_true]

/-- C1 (amended): for an expression `a (op b)*` with `op` in `+`, `-` (white
space allowed around the operators) whose operands are optionally signed
decimal integers that fit a signed 64-bit integer and whose partial sums all
fit a signed 64-bit integer, `eval_simple_expression` returns `0` and stores
the mathematical left-to-right sum and difference of the operands. -/
theorem eval_simple_expression_fold (a : Literal) (rest : List Step) (out : Int)
    (ha : fits64 a.value) (hr : operands_fit rest) (hs : sums_fit a.value rest) :
    eval_simple_expression (expr_text a rest) out = some (0, fold_value a.value rest) := by
  obtain ⟨k, hk⟩ := eval_expr_text a rest [] out (by decide) ha hr
  rw [List.append_nil] at hk
  rw [hk, eval_loop_nil, wrap_fold_eq rest _ hs]

/-- Witness of C1 (amended): the expression `1+2-3+4` evaluates to `4`. -/
theorem eval_simple_expression_fold_witness :
    expr_text (digit_literal 1) sample_steps = bytes "1+2-3+4"
    ∧ eval_simple_expression (expr_text (digit_literal 1) sample_steps) 0 = some (0, 4) :=
  ⟨by decide,
    eval_simple_expression_fold (digit_literal 1) sample_steps 0
      (by decide) (by decide) (by decide)⟩

/-- Counterexample to C1 as stated: in `9223372036854775807+1` both operands
fit a signed 64-bit integer, yet the value stored is not the mathematical sum
`9223372036854775808`. -/
theorem eval_simple_expression_overflow :
    expr_text llong_max_literal [step Op.add (digit_literal 1)] = bytes "9223372036854775807+1"
    ∧ fits64 llong_max_literal.value
    ∧ operands_fit [step Op.add (digit_literal 1)]
    ∧ fold_value llong_max_literal.value [step Op.add (digit_literal 1)] = 9223372036854775808
    ∧ eval_simple_expression (bytes "9223372036854775807+1") 0
        = some (0, -9223372036854775808) := by
  decide

/-- C3: on a NUL-free input, `url_decode` produces the output of the reference
decoder of the specification. -/
theorem url_decode_matches_reference (s : List Nat) (h : 0 ∉ s) :
    url_decode s = some (decode_ref s) := by
  rw [url_decode_eq, cstr_eq_self s h]

/-- Witness of C3: the input `2%2B10`. -/
theorem url_decode_matches_reference_witness :
    0 ∉ bytes "2%2B10" ∧ url_decode (bytes "2%2B10") = some (decode_ref (bytes "2%2B10")) :=
  ⟨by decide, url_decode_matches_reference (bytes "2%2B10") (by decide)⟩

/-- C4: an input without `%` is decoded to itself. -/
theorem url_decode_without_percent (s : List Nat) (h0 : 0 ∉ s) (h : 37 ∉ s) :
    url_decode s = some s := by
  rw [url_decode_eq, cstr_eq_self s h0, decode_ref_no_percent s h]

/-- Witness of C4: `2+10` is decoded to `2+10`. -/
theorem url_decode_without_percent_witness :
    0 ∉ bytes "2+10" ∧ 37 ∉ bytes "2+10"
    ∧ url_decode (bytes "2+10") = some (bytes "2+10") :=
  ⟨by decide, by decide, url_decode_without_percent (bytes "2+10") (by decide) (by decide)⟩

/-- C5 (amended): when the text that follows the leading white space of the
input does not begin with an optional sign followed by a decimal digit,
`eval_simple_expression` returns `-1` and leaves `*out_result` alone. -/
theorem eval_simple_expression_no_integer (s : List Nat) (out : Int)
    (h : begins_with_integer (s.dropWhile isspace) = false) :
    eval_simple_expression s out = some (-1, out) := by
  unfold eval_simple_expression
  simp only [strtoll_no_integer s h, if_true]

/-- Witness of C5 (amended): the input `abc`. -/
theorem eval_simple_expression_no_integer_witness :
    begins_with_integer ((bytes "abc").dropWhile isspace) = false
    ∧ eval_simple_expression (bytes "abc") 7 = some (-1, 7) :=
  ⟨by decide, eval_simple_expression_no_integer (bytes "abc") 7 (by decide)⟩

/-- Counterexample to C5 as stated: the input ` 5` begins with a space, not
with a sign or a digit, and `eval_simple_expression` returns `0` with the
result `5`. -/
theorem eval_simple_expression_leading_space :
    begins_with_integer (bytes " 5") = false
    ∧ eval_simple_expression (bytes " 5") 0 = some (0, 5) := by
  decide

/-- C6: a valid expression (an integer followed by zero or more
operator-integer pairs) followed by a remainder `R` that is not empty, does
not start with a digit and whose first character after its white space is
neither `+` nor `-` (a remainder of white space only included) makes
`eval_simple_expression` return `-1`.  The hypothesis `R.headD 0 ≠ 0` says
that `R` is not empty and, being text of a C string, does not start with the
terminator. -/
theorem eval_simple_expression_trailing (a : Literal) (rest : List Step)
    (R : List Nat) (out : Int) (h0 : R.headD 0 ≠ 0) (hd : isdigit (R.headD 0) = false)
    (hop : (R.dropWhile isspace).headD 0 ≠ 43 ∧ (R.dropWhile isspace).headD 0 ≠ 45) :
    eval_simple_expression (expr_text a rest ++ R) out = some (-1, out) := by
  by_cases hf : fits64 a.value ∧ operands_fit rest
  · obtain ⟨k, hk⟩ := eval_expr_text a rest R out hd hf.1 hf.2
    rw [hk, eval_loop_garbage k _ out R h0 hop]
  · apply eval_expr_text_unfit a rest R out hd
    by_cases ha : fits64 a.value
    · exact Or.inr (fun hr => hf ⟨ha, hr⟩)
    · exact Or.inl ha

/-- Witness of C6: `1+2x` fails, the `x` follows the operand `2`. -/
theorem eval_simple_expression_trailing_witness :
    expr_text (digit_literal 1) [step Op.add (digit_literal 2)] ++ bytes "x" = bytes "1+2x"
    ∧ eval_simple_expression
        (expr_text (digit_literal 1) [step Op.add (digit_literal 2)] ++ bytes "x") 0
      = some (-1, 0) :=
  ⟨by decide,
    eval_simple_expression_trailing (digit_literal 1) [step Op.add (digit_literal 2)] (bytes "x") 0
      (by decide) (by decide) (by decide)⟩

/-- C7: an expression `a (op b)*` in which the leading literal or a literal
after an operator denotes a value outside the signed 64-bit range makes
`eval_simple_expression` return `-1`. -/
theorem eval_simple_expression_range (a : Literal) (rest : List Step) (out : Int)
    (h : ¬ fits64 a.value ∨ ∃ p ∈ rest, ¬ fits64 p.operand.value) :
    eval_simple_expression (expr_text a rest) out = some (-1, out) := by
  have hu : ¬ fits64 a.value ∨ ¬ operands_fit rest := by
    rcases h with h | ⟨p, hp, hn⟩
    · exact Or.inl h
    · exact Or.inr (fun hr => hn (hr p hp))
  have := eval_expr_text_unfit a rest [] out (by decide) hu
  rwa [List.append_nil] at this

/-- Witness of C7: `1+99999999999999999999` fails. -/
theorem eval_simple_expression_range_witness :
    expr_text (digit_literal 1) [step Op.add huge_literal] = bytes "1+99999999999999999999"
    ∧ eval_simple_expression (expr_text (digit_literal 1) [step Op.add huge_literal]) 0
      = some (-1, 0) :=
  ⟨by decide,
    eval_simple_expression_range (digit_literal 1) [step Op.add huge_literal] 0
      (Or.inr ⟨step Op.add huge_literal, by simp, by decide⟩)⟩

/-! ## The request line -/

theorem bytes_GET : bytes "GET" = [71, 69, 84] := by decide

theorem bytes_calc : bytes "/calc?" = [47, 99, 97, 108, 99, 63] := by decide

theorem bytes_query : bytes "query=" = [113, 117, 101, 114, 121, 61] := by decide

theorem bytes_calc_query :
    bytes "/calc?query=" = [47, 99, 97, 108, 99, 63, 113, 117, 101, 114, 121, 61] := by decide

theorem cstr_append (a b : List Nat) (h : 0 ∉ a) : cstr (a ++ b) = a ++ cstr b := by
  induction a with
  | nil => rfl
  | cons c t ih =>
    simp only [List.mem_cons, not_or] at h
    rw [List.cons_append, cstr_cons, if_neg (fun e => h.1 e.symm), ih h.2, List.cons_append]

theorem cstr_no_nul (buf : List Nat) : 0 ∉ cstr buf := by
  intro h
  have := List.mem_takeWhile_imp h
  simp at this

theorem scan_token_append (t : List Nat) :
    ∀ (w : Nat) (r : List Nat), (∀ c ∈ t, isspace c = false) → t.length ≤ w →
      (t.length = w ∨ isspace (r.headD 0) = true ∨ r = []) →
      scan_token w (t ++ r) = (t, r) := by
  induction t with
  | nil =>
    intro w r _ _ h
    cases w with
    | zero => rfl
    | succ w =>
      cases r with
      | nil => rfl
      | cons c cs =>
        rcases h with h | h | h
        · simp at h
        · simp only [List.headD_cons] at h
          simp [scan_token, h]
        · simp at h
  | cons c t ih =>
    intro w r hns hlen h
    cases w with
    | zero => simp at hlen
    | succ w =>
      have hc : isspace c = false := hns c (List.mem_cons_self _ _)
      have ht : ∀ x ∈ t, isspace x = false := fun x hx => hns x (List.mem_cons_of_mem _ hx)
      have h2 : t.length = w ∨ isspace (r.headD 0) = true ∨ r = [] := by
        rcases h with h | h | h
        · left; simpa using h
        · right; left; exact h
        · right; right; exact h
      have := ih w r ht (by simpa using hlen) h2
      simp [scan_token, hc, this]

theorem scan_token_mem (w : Nat) (s : List Nat) : ∀ x ∈ (scan_token w s).1, x ∈ s := by
  induction s generalizing w with
  | nil => cases w <;> simp [scan_token]
  | cons c cs ih =>
    cases w with
    | zero => simp [scan_token]
    | succ w =>
      by_cases hc : isspace c = true
      · simp [scan_token, hc]
      · intro x hx
        simp only [scan_token, hc, Bool.false_eq_true, if_false, List.mem_cons] at hx
        rcases hx with rfl | hx
        · exact List.mem_cons_self _ _
        · exact List.mem_cons_of_mem _ (ih w x hx)

theorem sscanf_method_no_nul (buf : List Nat) : 0 ∉ (sscanf_request_line buf).2.1 := by
  unfold sscanf_request_line
  cases h1 : conv_s 15 (cstr buf) with
  | none => simp
  | some mr =>
    obtain ⟨method, r1⟩ := mr
    have hm : 0 ∉ method := by
      unfold conv_s at h1
      simp only [] at h1
      split at h1
      · exact absurd h1 (by simp)
      · simp only [Option.some.injEq] at h1
        intro h0
        have hx : (0 : Nat) ∈ (scan_token 15 (List.dropWhile isspace (cstr buf))).1 := by
          rw [h1]; exact h0
        have := scan_token_mem _ _ _ hx
        exact cstr_no_nul buf ((List.dropWhile_sublist _).subset this)
    cases h2 : conv_s 1023 (r1.dropWhile isspace) with
    | none => simp only [h2]; exact hm
    | some pr =>
      obtain ⟨path, r2⟩ := pr
      cases h3 : conv_s 31 (r2.dropWhile isspace) with
      | none => simp only [h2, h3]; exact hm
      | some qr => simp only [h2, h3]; exact hm

theorem strcmp_eq_zero (a : List Nat) : ∀ b : List Nat, 0 ∉ a → 0 ∉ b →
    (strcmp a b = 0 ↔ a = b) := by
  induction a with
  | nil =>
    intro b _ hb
    cases b with
    | nil => simp [strcmp]
    | cons y t =>
      simp only [List.mem_cons, not_or] at hb
      have : y ≠ 0 := fun e => hb.1 e.symm
      simp [strcmp]; omega
  | cons x s ih =>
    intro b ha hb
    simp only [List.mem_cons, not_or] at ha
    have hx : x ≠ 0 := fun e => ha.1 e.symm
    cases b with
    | nil => simp [strcmp]; omega
    | cons y t =>
      simp only [List.mem_cons, not_or] at hb
      by_cases hxy : x = y
      · subst hxy
        simp [strcmp, hx, ih t ha.2 hb.2]
      · have : (x : Int) - (y : Int) ≠ 0 := by omega
        simp [strcmp, hxy, this]

/-- C8: when the request line parses into three tokens and the method token is
not exactly `GET`, the response is 405, whatever the path is. -/
theorem main_handle_method_not_allowed (buf : List Nat)
    (h3 : (sscanf_request_line buf).1 = 3)
    (hm : (sscanf_request_line buf).2.1 ≠ bytes "GET") :
    main_handle buf = some ⟨405, bytes "Method Not Allowed", bytes "only GET allowed"⟩ := by
  have hcmp : strcmp (sscanf_request_line buf).2.1 (bytes "GET") ≠ 0 := by
    intro h
    exact hm ((strcmp_eq_zero _ _ (sscanf_method_no_nul buf) (by decide)).1 h)
  unfold main_handle
  simp only [h3, ne_eq, not_true_eq_false, if_false, hcmp, not_false_eq_true, if_true]

/-- Witness of C8: `POST /foo HTTP/1.1` is answered with 405. -/
theorem main_handle_method_not_allowed_witness :
    (sscanf_request_line (bytes "POST /foo HTTP/1.1")).2.1 = bytes "POST"
    ∧ main_handle (bytes "POST /foo HTTP/1.1")
      = some ⟨405, bytes "Method Not Allowed", bytes "only GET allowed"⟩ :=
  ⟨by decide,
    main_handle_method_not_allowed (bytes "POST /foo HTTP/1.1") (by decide) (by decide)⟩

/-! ## The `/calc` request -/

theorem dropWhile_isspace_append (t r : List Nat) (h1 : t ≠ [])
    (h2 : ∀ c ∈ t, isspace c = false) : (t ++ r).dropWhile isspace = t ++ r := by
  cases t with
  | nil => exact absurd rfl h1
  | cons c t =>
    rw [List.cons_append, List.dropWhile_cons, h2 c (List.mem_cons_self _ _)]
    rfl

theorem conv_s_append (w : Nat) (t r : List Nat) (h1 : t ≠ [])
    (h2 : ∀ c ∈ t, isspace c = false) (h3 : t.length ≤ w)
    (h4 : t.length = w ∨ isspace (r.headD 0) = true ∨ r = []) :
    conv_s w (t ++ r) = some (t, r) := by
  unfold conv_s
  simp only [dropWhile_isspace_append t r h1 h2, scan_token_append t w r h2 h3 h4]
  cases t with
  | nil => exact absurd rfl h1
  | cons c t => rfl

theorem dropWhile_isspace_idem (l : List Nat) :
    (l.dropWhile isspace).dropWhile isspace = l.dropWhile isspace := by
  induction l with
  | nil => rfl
  | cons c t ih =>
    by_cases hc : isspace c = true
    · simp [List.dropWhile_cons, hc, ih]
    · simp [List.dropWhile_cons, hc]

theorem sscanf_three (buf m p Z : List Nat) (hbuf : cstr buf = m ++ 32 :: (p ++ Z))
    (hm1 : m ≠ []) (hm2 : ∀ c ∈ m, isspace c = false) (hm3 : m.length ≤ 15)
    (hp1 : p ≠ []) (hp2 : ∀ c ∈ p, isspace c = false) (hp3 : p.length ≤ 1023)
    (hcut : p.length = 1023 ∨ isspace (Z.headD 0) = true ∨ Z = [])
    (hZ : Z.dropWhile isspace ≠ []) :
    ∃ proto, sscanf_request_line buf = (3, m, p, proto) := by
  have c1 : conv_s 15 (cstr buf) = some (m, 32 :: (p ++ Z)) := by
    rw [hbuf]
    exact conv_s_append 15 m _ hm1 hm2 hm3 (Or.inr (Or.inl rfl))
  have d1 : (32 :: (p ++ Z)).dropWhile isspace = p ++ Z := by
    rw [List.dropWhile_cons, if_pos (by decide)]
    exact dropWhile_isspace_append p Z hp1 hp2
  have c2 : conv_s 1023 (p ++ Z) = some (p, Z) := conv_s_append 1023 p Z hp1 hp2 hp3 hcut
  have c3 : conv_s 31 (Z.dropWhile isspace)
      = some (scan_token 31 (Z.dropWhile isspace)) := by
    unfold conv_s
    simp only [dropWhile_isspace_idem]
    cases hz : Z.dropWhile isspace with
    | nil => exact absurd hz hZ
    | cons a b => rfl
  refine ⟨(scan_token 31 (Z.dropWhile isspace)).1, ?_⟩
  unfold sscanf_request_line
  simp only [c1, d1, c2, c3]

theorem copy_qval_clean (q : List Nat) :
    ∀ i : Nat, (∀ c ∈ q, c ≠ 0 ∧ c ≠ 32 ∧ c ≠ 38) → i + q.length < 1024 →
      copy_qval i q = q := by
  induction q with
  | nil => intro i _ _; rfl
  | cons c t ih =>
    intro i h hlen
    have hc := h c (List.mem_cons_self _ _)
    simp only [List.length_cons] at hlen
    have hi : i + 1 < 1024 := by omega
    rw [copy_qval, if_pos ⟨hc.1, hc.2.1, hc.2.2, hi⟩,
      ih (i + 1) (fun x hx => h x (List.mem_cons_of_mem _ hx)) (by omega)]

theorem eval_loop_success_out (fuel : Nat) :
    ∀ (acc : Int) (p : List Nat) (out out2 r : Int),
      eval_loop fuel acc p out = some (0, r) → eval_loop fuel acc p out2 = some (0, r) := by
  induction fuel with
  | zero => intro acc p out out2 r h; simp [eval_loop] at h
  | succ n ih =>
    intro acc p out out2 r h
    simp only [eval_loop] at h ⊢
    split_ifs at h ⊢ <;> first
      | exact h
      | exact absurd h (by simp)
      | exact ih _ _ _ _ _ h

theorem eval_success_out (d : List Nat) (out out2 r : Int)
    (h : eval_simple_expression d out = some (0, r)) :
    eval_simple_expression d out2 = some (0, r) := by
  simp only [eval_simple_expression] at h ⊢
  split_ifs at h ⊢ <;> first
    | exact absurd h (by simp)
    | exact eval_loop_success_out _ _ _ _ _ _ h

theorem strtoll_value_fits (s : List Nat) : fits64 (strtoll s).value := by
  unfold strtoll
  simp only []
  split_ifs <;> first
    | exact (by decide : fits64 0)
    | exact (by decide : fits64 LLONG_MAX)
    | exact (by decide : fits64 LLONG_MIN)
    | (unfold fits64; constructor <;> simp only [] <;> omega)

theorem skip_sign_length (s : List Nat) : (skip_sign s).length ≤ s.length := by
  cases s with
  | nil => simp [skip_sign]
  | cons c t =>
    rw [skip_sign_cons]
    split <;> simp

theorem strtoll_endptr_length (s : List Nat) : (strtoll s).endptr.length ≤ s.length := by
  have h1 : ((skip_sign (s.dropWhile isspace)).dropWhile isdigit).length ≤ s.length :=
    le_trans (List.dropWhile_sublist _).length_le
      (le_trans (skip_sign_length _) (List.dropWhile_sublist _).length_le)
  unfold strtoll
  simp only []
  split_ifs <;> first | exact le_refl _ | exact h1

theorem wrap64_range (x : Int) : fits64 (wrap64 x) := by
  unfold fits64 LLONG_MIN LLONG_MAX wrap64
  omega

theorem eval_loop_total (fuel : Nat) :
    ∀ (acc : Int) (p : List Nat) (out : Int), p.length < fuel →
      ∃ res, eval_loop fuel acc p out = some res := by
  induction fuel with
  | zero => intro acc p out h; omega
  | succ n ih =>
    intro acc p out h
    simp only [eval_loop]
    by_cases h1 : p.headD 0 = 0
    · rw [if_pos h1]; exact ⟨_, rfl⟩
    rw [if_neg h1]
    by_cases h2 : (p.dropWhile isspace).headD 0 ≠ 43 ∧ (p.dropWhile isspace).headD 0 ≠ 45
    · rw [if_pos h2]; exact ⟨_, rfl⟩
    rw [if_neg h2]
    by_cases h3 : ((p.dropWhile isspace).tail.dropWhile isspace).headD 0 = 0
    · rw [if_pos h3]; exact ⟨_, rfl⟩
    rw [if_neg h3]
    by_cases h4 : (strtoll ((p.dropWhile isspace).tail.dropWhile isspace)).converted = false
    · rw [if_pos h4]; exact ⟨_, rfl⟩
    rw [if_neg h4]
    by_cases h5 : (strtoll ((p.dropWhile isspace).tail.dropWhile isspace)).erange = true
    · rw [if_pos h5]; exact ⟨_, rfl⟩
    rw [if_neg h5]
    apply ih
    have a1 := strtoll_endptr_length ((p.dropWhile isspace).tail.dropWhile isspace)
    have a2 : ((p.dropWhile isspace).tail.dropWhile isspace).length
        ≤ (p.dropWhile isspace).tail.length := (List.dropWhile_sublist _).length_le
    have a3 : (p.dropWhile isspace).length ≤ p.length := (List.dropWhile_sublist _).length_le
    have a4 : (p.dropWhile isspace) ≠ [] := by
      intro e
      rw [e] at h2
      simp at h2
    have a5 : (p.dropWhile isspace).tail.length + 1 = (p.dropWhile isspace).length := by
      cases hp : p.dropWhile isspace with
      | nil => exact absurd hp a4
      | cons c t => simp
    omega

theorem eval_loop_fits (fuel : Nat) :
    ∀ (acc : Int) (p : List Nat) (out r : Int), fits64 acc →
      eval_loop fuel acc p out = some (0, r) → fits64 r := by
  induction fuel with
  | zero => intro acc p out r _ h; simp [eval_loop] at h
  | succ n ih =>
    intro acc p out r ha h
    simp only [eval_loop] at h
    split_ifs at h <;> first
      | exact ih _ _ _ _ (wrap64_range _) h
      | (simp only [Option.some.injEq, Prod.mk.injEq, true_and] at h
         rw [← h]; exact ha)
      | simp at h

/-- The evaluator always returns: the fuel of its loop is never used up. -/
theorem eval_simple_expression_total (s : List Nat) (out : Int) :
    ∃ res, eval_simple_expression s out = some res := by
  simp only [eval_simple_expression]
  split_ifs
  · exact ⟨_, rfl⟩
  · exact ⟨_, rfl⟩
  · exact eval_loop_total _ _ _ _ (by have := strtoll_endptr_length s; omega)

theorem eval_simple_expression_fits (s : List Nat) (out r : Int)
    (h : eval_simple_expression s out = some (0, r)) : fits64 r := by
  simp only [eval_simple_expression] at h
  split_ifs at h
  · exact absurd h (by simp)
  · exact absurd h (by simp)
  · exact eval_loop_fits _ _ _ _ _ (strtoll_value_fits s) h

theorem fmt_lld_length (r : Int) (h : fits64 r) : (fmt_lld r).length ≤ 20 := by
  have hb : r.natAbs < 10 ^ 19 := by
    unfold fits64 LLONG_MIN LLONG_MAX at h
    omega
  have hl : (Nat.toDigits 10 r.natAbs).length ≤ 19 :=
    Nat.toDigitsCore_length 10 (by decide) _ _ 19 hb (by decide)
  unfold fmt_lld
  split_ifs <;> simp <;> omega

theorem snprintf_lld_fits (r : Int) (h : fits64 r) : snprintf_lld 64 r = fmt_lld r := by
  have := fmt_lld_length r h
  unfold snprintf_lld
  exact List.take_of_length_le (by omega)

/-- The handler on a `GET` request whose path is `/calc?query=` followed by a
value free of delimiters: the response is decided by the evaluation of the
decoded value. -/
theorem main_handle_calc (buf q pr d : List Nat) (rc r : Int)
    (hs : sscanf_request_line buf = (3, bytes "GET", bytes "/calc?query=" ++ q, pr))
    (hq : ∀ c ∈ q, c ≠ 0 ∧ c ≠ 32 ∧ c ≠ 38) (hlen : q.length < 1024)
    (hd : url_decode q = some d) (he : eval_simple_expression d 0 = some (rc, r)) :
    main_handle buf =
      if rc ≠ 0 then some ⟨400, bytes "Bad Request", bytes "invalid expression"⟩
      else some ⟨200, bytes "OK", snprintf_lld 64 r⟩ := by
  have h1 : strcmp (bytes "GET") (bytes "GET") = 0 := by decide
  have h2 : strstr (bytes "/calc?query=" ++ q) (bytes "/calc?")
      = some (bytes "/calc?query=" ++ q) := by
    rw [bytes_calc_query, bytes_calc]
    simp [strstr, List.isPrefixOf]
  have h3 : strstr (bytes "/calc?query=" ++ q) (bytes "query=")
      = some (bytes "query=" ++ q) := by
    rw [bytes_calc_query, bytes_query]
    simp [strstr, List.isPrefixOf]
  have h4 : (bytes "query=" ++ q).drop (strlen (bytes "query=")) = q := by
    have : strlen (bytes "query=") = 6 := by decide
    rw [this, bytes_query]
    rfl
  have h5 : copy_qval 0 q = q := copy_qval_clean q 0 hq (by omega)
  unfold main_handle
  simp only [hs, ne_eq, not_true_eq_false, if_false, h1, h2, h3, h4, h5, hd, he]

theorem replicate_zero_clean (n : Nat) :
    ∀ c ∈ List.replicate n 48, c ≠ 0 ∧ c ≠ 32 ∧ c ≠ 38 := by
  intro c hc
  have := List.eq_of_mem_replicate hc
  subst this
  decide

theorem url_decode_plain (s : List Nat) (h0 : 0 ∉ s) (h : 37 ∉ s) : url_decode s = some s := by
  rw [url_decode_eq, cstr_eq_self s h0, decode_ref_no_percent s h]

theorem calc_query_no_space : ∀ c ∈ bytes "/calc?query=", isspace c = false := by decide

/-- The handler on a request whose path has more than 1023 characters: the
value evaluated is the part `z` of the query value that fits the path array,
whatever follows it. -/
theorem main_handle_cut (z w tail d : List Nat) (c : Nat) (r : Int) (hz : z.length = 1011)
    (hclean : ∀ x ∈ z, x ≠ 0 ∧ isspace x = false ∧ x ≠ 38)
    (hc : isspace c = false) (hw : 0 ∉ c :: w)
    (hd : url_decode z = some d) (he : eval_simple_expression d 0 = some (0, r)) :
    main_handle (bytes "GET /calc?query=" ++ z ++ (c :: w) ++ tail)
      = some ⟨200, bytes "OK", fmt_lld r⟩ := by
  have hz0 : 0 ∉ z := fun h => (hclean 0 h).1 rfl
  have e1 : bytes "GET /calc?query=" = bytes "GET" ++ 32 :: bytes "/calc?query=" := by decide
  have hpre : 0 ∉ bytes "GET /calc?query=" ++ z ++ (c :: w) := by
    simp only [List.mem_append, not_or]
    exact ⟨⟨by decide, hz0⟩, hw⟩
  have hbuf : cstr (bytes "GET /calc?query=" ++ z ++ (c :: w) ++ tail)
      = bytes "GET" ++ 32 :: ((bytes "/calc?query=" ++ z) ++ (c :: (w ++ cstr tail))) := by
    rw [cstr_append _ _ hpre, e1]
    simp
  have hp2 : ∀ x ∈ bytes "/calc?query=" ++ z, isspace x = false := by
    intro x hx
    rcases List.mem_append.1 hx with h | h
    · exact calc_query_no_space x h
    · exact (hclean x h).2.1
  have hp3 : (bytes "/calc?query=" ++ z).length = 1023 := by
    rw [bytes_calc_query, List.length_append, hz]; rfl
  obtain ⟨proto, hs⟩ := sscanf_three _ (bytes "GET") (bytes "/calc?query=" ++ z)
    (c :: (w ++ cstr tail)) hbuf (by decide) (by decide) (by decide)
    (by rw [bytes_calc_query]; simp) hp2 (by omega) (Or.inl hp3)
    (by rw [List.dropWhile_cons, hc]; simp)
  have hq : ∀ x ∈ z, x ≠ 0 ∧ x ≠ 32 ∧ x ≠ 38 := by
    intro x hx
    refine ⟨(hclean x hx).1, ?_, (hclean x hx).2.2⟩
    rintro rfl
    exact absurd (hclean 32 hx).2.1 (by decide)
  rw [main_handle_calc _ z proto d 0 r hs hq (by omega) hd he,
    snprintf_lld_fits r (eval_simple_expression_fits d 0 r he)]
  simp

/-- C2 (amended): for a request `GET /calc?query=<v> HTTP/1.1` whose value `v`
has at most 1011 characters, none of them NUL, white space or `&`, when `v`
percent-decodes to `d` and `eval_simple_expression` succeeds on `d` with the
result `r`, the response is 200 with the decimal representation of `r` as
body. -/
theorem main_handle_calc_ok (v tail d : List Nat) (out r : Int)
    (hv : ∀ c ∈ v, c ≠ 0 ∧ isspace c = false ∧ c ≠ 38) (hlen : v.length ≤ 1011)
    (hd : url_decode v = some d) (he : eval_simple_expression d out = some (0, r)) :
    main_handle (bytes "GET /calc?query=" ++ v ++ bytes " HTTP/1.1" ++ tail)
      = some ⟨200, bytes "OK", fmt_lld r⟩ := by
  have hv0 : 0 ∉ v := fun h => (hv 0 h).1 rfl
  have e1 : bytes "GET /calc?query=" = bytes "GET" ++ 32 :: bytes "/calc?query=" := by decide
  have e2 : bytes " HTTP/1.1" = 32 :: bytes "HTTP/1.1" := by decide
  have hpre : 0 ∉ bytes "GET /calc?query=" ++ v ++ bytes " HTTP/1.1" := by
    simp only [List.mem_append, not_or]
    exact ⟨⟨by decide, hv0⟩, by decide⟩
  have hbuf : cstr (bytes "GET /calc?query=" ++ v ++ bytes " HTTP/1.1" ++ tail)
      = bytes "GET" ++ 32 :: ((bytes "/calc?query=" ++ v)
          ++ (32 :: (bytes "HTTP/1.1" ++ cstr tail))) := by
    rw [cstr_append _ _ hpre, e1, e2]
    simp
  have hp2 : ∀ c ∈ bytes "/calc?query=" ++ v, isspace c = false := by
    intro c hc
    rcases List.mem_append.1 hc with h | h
    · exact calc_query_no_space c h
    · exact (hv c h).2.1
  have hp3 : (bytes "/calc?query=" ++ v).length ≤ 1023 := by
    rw [bytes_calc_query]; simp; omega
  obtain ⟨proto, hs⟩ := sscanf_three _ (bytes "GET") (bytes "/calc?query=" ++ v)
    (32 :: (bytes "HTTP/1.1" ++ cstr tail)) hbuf (by decide) (by decide) (by decide)
    (by rw [bytes_calc_query]; simp) hp2 hp3 (Or.inr (Or.inl rfl))
    (by
      have : bytes "HTTP/1.1" = 72 :: bytes "TTP/1.1" := by decide
      rw [this]
      simp [List.dropWhile_cons, isspace])
  have hq : ∀ c ∈ v, c ≠ 0 ∧ c ≠ 32 ∧ c ≠ 38 := by
    intro c hc
    refine ⟨(hv c hc).1, ?_, (hv c hc).2.2⟩
    rintro rfl
    exact absurd (hv 32 hc).2.1 (by decide)
  rw [main_handle_calc _ v proto d 0 r hs hq (by omega) hd (eval_success_out d out 0 r he),
    snprintf_lld_fits r (eval_simple_expression_fits d out r he)]
  simp

/-- Witness of C2 (amended): `GET /calc?query=2%2B10 HTTP/1.1` is answered
with 200 and the body `12`. -/
theorem main_handle_calc_ok_witness :
    bytes "GET /calc?query=" ++ bytes "2%2B10" ++ bytes " HTTP/1.1" ++ bytes "\r\n\r\n"
      = bytes "GET /calc?query=2%2B10 HTTP/1.1\r\n\r\n"
    ∧ fmt_lld 12 = bytes "12"
    ∧ main_handle
        (bytes "GET /calc?query=" ++ bytes "2%2B10" ++ bytes " HTTP/1.1" ++ bytes "\r\n\r\n")
      = some ⟨200, bytes "OK", fmt_lld 12⟩ :=
  ⟨by decide, by decide,
    main_handle_calc_ok (bytes "2%2B10") (bytes "\r\n\r\n") (bytes "2+10") 0 12
      (by decide) (by decide) (by decide) (by decide)⟩

set_option maxRecDepth 1000000 in
theorem eval_long_zero_query : eval_simple_expression long_zero_query 0 = some (0, 1) := by
  decide!

set_option maxRecDepth 1000000 in
theorem eval_zeros : eval_simple_expression (List.replicate 1011 48) 0 = some (0, 0) := by
  decide!

/-- Counterexample to C2 as stated: the value made of 1011 zeros followed by
`1` has no white space and no `&`, decodes to itself and evaluates to `1`, yet
the response to `GET /calc?query=<v> HTTP/1.1` has the body `0`: the path is
cut after 1023 characters. -/
theorem main_handle_truncates_query :
    (∀ c ∈ long_zero_query, c ≠ 0 ∧ isspace c = false ∧ c ≠ 38)
    ∧ url_decode long_zero_query = some long_zero_query
    ∧ eval_simple_expression long_zero_query 0 = some (0, 1)
    ∧ main_handle (bytes "GET /calc?query=" ++ long_zero_query ++ bytes " HTTP/1.1")
        = some ⟨200, bytes "OK", bytes "0"⟩
    ∧ fmt_lld 1 ≠ bytes "0" := by
  have hmem : ∀ c ∈ long_zero_query, c = 48 ∨ c = 49 := by
    intro c hc
    rcases List.mem_append.1 hc with h | h
    · exact Or.inl (List.eq_of_mem_replicate h)
    · exact Or.inr (by simpa using h)
  refine ⟨?_, ?_, eval_long_zero_query, ?_, by decide⟩
  · intro c hc
    rcases hmem c hc with rfl | rfl <;> decide
  · apply url_decode_plain
    · intro h; rcases hmem 0 h with h | h <;> exact absurd h (by decide)
    · intro h; rcases hmem 37 h with h | h <;> exact absurd h (by decide)
  · have hclean : ∀ x ∈ List.replicate 1011 48,
        x ≠ 0 ∧ isspace x = false ∧ x ≠ 38 := by
      intro x hx
      rw [List.eq_of_mem_replicate hx]; decide
    have hz0 : (0 : Nat) ∉ List.replicate 1011 48 := fun h => (hclean 0 h).1 rfl
    have hz37 : (37 : Nat) ∉ List.replicate 1011 48 := fun h =>
      absurd (List.eq_of_mem_replicate h) (by decide)
    have e : bytes "GET /calc?query=" ++ long_zero_query ++ bytes " HTTP/1.1"
        = bytes "GET /calc?query=" ++ List.replicate 1011 48 ++ (49 :: [])
            ++ bytes " HTTP/1.1" := by
      rw [long_zero_query, ← List.append_assoc]
    rw [e, main_handle_cut (List.replicate 1011 48) [] (bytes " HTTP/1.1")
      (List.replicate 1011 48) 49 0 (List.length_replicate _ _) hclean (by decide) (by decide)
      (url_decode_plain _ hz0 hz37) eval_zeros]
    decide

/-- C9, the code at the failing input: the path `/foo/calc?query=1` does not
begin with `/calc?`, and the request is answered with 200 and the body `1`. -/
theorem main_handle_calc_inside_path :
    main_handle (bytes "GET /foo/calc?query=1 HTTP/1.1")
      = some ⟨200, bytes "OK", bytes "1"⟩ := by
  decide

/-! ## Requests with fewer than three tokens -/

theorem scan_token_take (s : List Nat) :
    ∀ w : Nat, (s.takeWhile (fun c => !isspace c)).length ≤ w →
      scan_token w s = (s.takeWhile (fun c => !isspace c), s.dropWhile (fun c => !isspace c)) := by
  induction s with
  | nil => intro w _; cases w <;> rfl
  | cons c cs ih =>
    intro w h
    by_cases hc : isspace c = true
    · cases w <;> simp [scan_token, List.takeWhile_cons, List.dropWhile_cons, hc]
    · have hc2 : isspace c = false := by simpa using hc
      simp only [List.takeWhile_cons, hc2, Bool.not_false, if_true, List.length_cons] at h
      cases w with
      | zero => omega
      | succ w =>
        have := ih w (by omega)
        simp [scan_token, List.takeWhile_cons, List.dropWhile_cons, hc2, this]

theorem dropWhile_nonspace_lt (s : List Nat) (h : (s.dropWhile isspace).isEmpty = false) :
    ((s.dropWhile isspace).dropWhile (fun c => !isspace c)).length < s.length := by
  have h1 : (s.dropWhile isspace).length ≤ s.length := (List.dropWhile_sublist _).length_le
  cases hs : s.dropWhile isspace with
  | nil => rw [hs] at h; simp at h
  | cons c cs =>
    have hc : isspace c = false := by
      have := List.head_dropWhile_not isspace s (by rw [hs]; simp)
      simpa [hs] using this
    rw [hs] at h1
    have h2 : (cs.dropWhile (fun c => !isspace c)).length ≤ cs.length :=
      (List.dropWhile_sublist _).length_le
    simp only [List.dropWhile_cons, hc, Bool.not_false, if_true]
    simp only [List.length_cons] at h1
    omega

theorem tokens_fuel_empty (fuel : Nat) (s : List Nat) (hf : s.length ≤ fuel)
    (h : tokens_fuel fuel s = []) : (s.dropWhile isspace).isEmpty = true := by
  cases fuel with
  | zero =>
    have : s = [] := List.length_eq_zero.1 (by omega)
    subst this; rfl
  | succ n =>
    by_cases he : (s.dropWhile isspace).isEmpty = true
    · exact he
    · simp [tokens_fuel, he] at h

theorem tokens_fuel_cons (fuel : Nat) (s : List Nat) (hf : s.length ≤ fuel)
    (h : (s.dropWhile isspace).isEmpty = false) :
    tokens_fuel fuel s =
      (s.dropWhile isspace).takeWhile (fun c => !isspace c) ::
        tokens_fuel (fuel - 1) ((s.dropWhile isspace).dropWhile (fun c => !isspace c)) := by
  cases fuel with
  | zero =>
    have : s = [] := List.length_eq_zero.1 (by omega)
    subst this; simp at h
  | succ n => simp [tokens_fuel, h]

/-- The count returned by `sscanf` is below three when the text has fewer than
three tokens and its first two tokens fit the arrays. -/
theorem sscanf_few_tokens (buf : List Nat) (h : (tokens (cstr buf)).length < 3)
    (h1 : ((tokens (cstr buf)).getD 0 []).length ≤ 15)
    (h2 : ((tokens (cstr buf)).getD 1 []).length ≤ 1023) :
    (sscanf_request_line buf).1 ≠ 3 := by
  unfold tokens at h h1 h2
  generalize hn : (cstr buf).length = n at h h1 h2
  have hf : (cstr buf).length ≤ n := by omega
  unfold sscanf_request_line
  generalize cstr buf = s at h h1 h2 hf ⊢
  by_cases e1 : (s.dropWhile isspace).isEmpty = true
  · simp [conv_s, e1]
  · have e1f : (s.dropWhile isspace).isEmpty = false := by simpa using e1
    rw [tokens_fuel_cons n s hf e1f] at h h1 h2
    simp only [List.getD_cons_zero, List.getD_cons_succ, List.length_cons] at h h1 h2
    have hlt := dropWhile_nonspace_lt s e1f
    have c1 : conv_s 15 s = some ((s.dropWhile isspace).takeWhile (fun c => !isspace c),
        (s.dropWhile isspace).dropWhile (fun c => !isspace c)) := by
      simp only [conv_s, e1f, Bool.false_eq_true, if_false, scan_token_take _ 15 h1]
    simp only [c1]
    generalize (s.dropWhile isspace).dropWhile (fun c => !isspace c) = s1 at h h2 hlt
    have hf1 : s1.length ≤ n - 1 := by omega
    by_cases e2 : (s1.dropWhile isspace).isEmpty = true
    · simp [conv_s, dropWhile_isspace_idem, e2]
    · have e2f : (s1.dropWhile isspace).isEmpty = false := by simpa using e2
      rw [tokens_fuel_cons (n - 1) s1 hf1 e2f] at h h2
      simp only [List.getD_cons_zero, List.length_cons] at h h2
      have hlt2 := dropWhile_nonspace_lt s1 e2f
      have c2 : conv_s 1023 (s1.dropWhile isspace)
          = some ((s1.dropWhile isspace).takeWhile (fun c => !isspace c),
            (s1.dropWhile isspace).dropWhile (fun c => !isspace c)) := by
        simp only [conv_s, dropWhile_isspace_idem, e2f, Bool.false_eq_true, if_false,
          scan_token_take _ 1023 h2]
      simp only [c2]
      generalize (s1.dropWhile isspace).dropWhile (fun c => !isspace c) = s2 at h hlt2
      have hf2 : s2.length ≤ n - 1 - 1 := by omega
      have hnil : tokens_fuel (n - 1 - 1) s2 = [] := List.length_eq_zero.1 (by omega)
      have e3 := tokens_fuel_empty _ s2 hf2 hnil
      simp [conv_s, dropWhile_isspace_idem, e3]

/-- C10 (amended): when the request buffer holds fewer than three white-space
separated tokens, the first of at most 15 characters and the second of at most
1023 characters, the response is 400 with the body `invalid request-line`, the
response sent before the method, the path and the expression are looked at. -/
theorem main_handle_few_tokens (buf : List Nat) (h : (tokens (cstr buf)).length < 3)
    (h1 : ((tokens (cstr buf)).getD 0 []).length ≤ 15)
    (h2 : ((tokens (cstr buf)).getD 1 []).length ≤ 1023) :
    main_handle buf = some ⟨400, bytes "Bad Request", bytes "invalid request-line"⟩ := by
  unfold main_handle
  simp only [sscanf_few_tokens buf h h1 h2, ne_eq, not_false_eq_true, if_true]

/-- Witness of C10 (amended): the buffer `GET /calc?query=1` has two tokens. -/
theorem main_handle_few_tokens_witness :
    (tokens (cstr (bytes "GET /calc?query=1"))).length = 2
    ∧ main_handle (bytes "GET /calc?query=1")
      = some ⟨400, bytes "Bad Request", bytes "invalid request-line"⟩ :=
  ⟨by decide,
    main_handle_few_tokens (bytes "GET /calc?query=1") (by decide) (by decide) (by decide)⟩

/-- Counterexample to C10 as stated: the buffer `AAAAAAAAAAAAAAAAA B` holds two
white-space separated tokens, and the response is 405, not 400: the first
token has 17 characters and `%15s` splits it in two. -/
theorem main_handle_long_method :
    (tokens (cstr (bytes "AAAAAAAAAAAAAAAAA B"))).length = 2
    ∧ main_handle (bytes "AAAAAAAAAAAAAAAAA B")
      = some ⟨405, bytes "Method Not Allowed", bytes "only GET allowed"⟩ := by
  decide

/-! ## Totality of the handler -/

/-- The handler always sends a response. -/
theorem main_handle_total (buf : List Nat) : ∃ resp, main_handle buf = some resp := by
  unfold main_handle
  simp only []
  split_ifs
  · exact ⟨_, rfl⟩
  · exact ⟨_, rfl⟩
  · split
    · exact ⟨_, rfl⟩
    · split
      · exact ⟨_, rfl⟩
      · split
        · exact ⟨_, rfl⟩
        · rename_i decoded _
          obtain ⟨res, hres⟩ := eval_simple_expression_total decoded 0
          rw [hres]
          obtain ⟨rc, result⟩ := res
          simp only []
          split_ifs
          · exact ⟨_, rfl⟩
          · exact ⟨_, rfl⟩

/-! ## What the evaluator stores -/

theorem eval_loop_cases (fuel : Nat) :
    ∀ (acc : Int) (p : List Nat) (out : Int) (res : Int × Int),
      eval_loop fuel acc p out = some res → res = (-1, out) ∨ res.1 = 0 := by
  induction fuel with
  | zero => intro acc p out res h; simp [eval_loop] at h
  | succ n ih =>
    intro acc p out res h
    simp only [eval_loop] at h
    split_ifs at h <;> first
      | exact ih _ _ _ _ h
      | (simp only [Option.some.injEq] at h
         rw [← h]
         first
           | exact Or.inl rfl
           | exact Or.inr rfl)

theorem eval_cases (s : List Nat) (out : Int) (res : Int × Int)
    (h : eval_simple_expression s out = some res) : res = (-1, out) ∨ res.1 = 0 := by
  simp only [eval_simple_expression] at h
  split_ifs at h <;> first
    | exact eval_loop_cases _ _ _ _ _ h
    | (simp only [Option.some.injEq] at h
       rw [← h]
       exact Or.inl rfl)

theorem eval_dichotomy (s : List Nat) (out : Int) :
    eval_simple_expression s out = some (-1, out)
      ∨ ∃ r, ∀ out2, eval_simple_expression s out2 = some (0, r) := by
  obtain ⟨res, hres⟩ := eval_simple_expression_total s out
  rcases eval_cases s out res hres with h | h
  · left; rw [hres, h]
  · right
    obtain ⟨rc, r⟩ := res
    simp only at h
    subst h
    exact ⟨r, fun out2 => eval_success_out s out out2 r hres⟩

theorem eval_loop_final (fuel : Nat) :
    ∀ (acc : Int) (p : List Nat) (out r : Int),
      eval_loop fuel acc p out = some (0, r) →
      ∃ k q, loop_state k acc p = some (r, q) ∧ q.headD 0 = 0 := by
  induction fuel with
  | zero => intro acc p out r h; simp [eval_loop] at h
  | succ n ih =>
    intro acc p out r h
    rw [eval_loop] at h
    by_cases h1 : p.headD 0 = 0
    · rw [if_pos h1] at h
      simp only [Option.some.injEq, Prod.mk.injEq, true_and] at h
      exact ⟨0, p, by rw [← h]; rfl, h1⟩
    rw [if_neg h1] at h
    simp only [] at h
    by_cases h2 : (p.dropWhile isspace).headD 0 ≠ 43 ∧ (p.dropWhile isspace).headD 0 ≠ 45
    · rw [if_pos h2] at h; exact absurd h (by simp)
    rw [if_neg h2] at h
    by_cases h3 : ((p.dropWhile isspace).tail.dropWhile isspace).headD 0 = 0
    · rw [if_pos h3] at h; exact absurd h (by simp)
    rw [if_neg h3] at h
    by_cases h4 : (strtoll ((p.dropWhile isspace).tail.dropWhile isspace)).converted = false
    · rw [if_pos h4] at h; exact absurd h (by simp)
    rw [if_neg h4] at h
    by_cases h5 : (strtoll ((p.dropWhile isspace).tail.dropWhile isspace)).erange = true
    · rw [if_pos h5] at h; exact absurd h (by simp)
    rw [if_neg h5] at h
    obtain ⟨k, q, hk, hq⟩ := ih _ _ _ _ h
    refine ⟨k + 1, q, ?_, hq⟩
    have hb : eval_body acc p = some
        (if (p.dropWhile isspace).headD 0 = 43 then
            wrap64 (acc + (strtoll ((p.dropWhile isspace).tail.dropWhile isspace)).value)
          else wrap64 (acc - (strtoll ((p.dropWhile isspace).tail.dropWhile isspace)).value),
          (strtoll ((p.dropWhile isspace).tail.dropWhile isspace)).endptr) := by
      unfold eval_body
      simp only []
      rw [if_neg h2, if_neg h3, if_neg h4, if_neg h5]
    rw [loop_state, if_neg h1, hb]
    exact hk

/-- On success the value stored is the accumulator with which the loop of the
evaluator is left. -/
theorem eval_final (s : List Nat) (out r : Int)
    (h : eval_simple_expression s out = some (0, r)) :
    (strtoll s).converted = true ∧ (strtoll s).erange = false
      ∧ ∃ k q, loop_state k (strtoll s).value (strtoll s).endptr = some (r, q)
          ∧ q.headD 0 = 0 := by
  simp only [eval_simple_expression] at h
  by_cases h1 : (strtoll s).converted = false
  · rw [if_pos h1] at h; exact absurd h (by simp)
  rw [if_neg h1] at h
  by_cases h2 : (strtoll s).erange = true
  · rw [if_pos h2] at h; exact absurd h (by simp)
  rw [if_neg h2] at h
  exact ⟨by simpa using h1, by simpa using h2, eval_loop_final _ _ _ _ _ h⟩

/-- The loop on `+2-3+4` with the accumulator `1`: after three passes the
accumulator is `4` and the text is used up. -/
theorem loop_state_sample : loop_state 3 1 (bytes "+2-3+4") = some (4, []) := by
  decide

/-- C17: `eval_simple_expression` writes `*out_result` only on success: either
it returns `-1` and the value stored is the one stored before the call, or it
returns `0` and the value stored is the final accumulator: the accumulator
that the loop, started with the value and the end pointer of the leading
`strtoll`, holds after the pass at whose end the test `*p` fails; that value
is the same whatever was stored before the call. -/
theorem eval_simple_expression_out_result (s : List Nat) (out : Int) :
    eval_simple_expression s out = some (-1, out)
      ∨ ∃ r k q, (strtoll s).converted = true ∧ (strtoll s).erange = false
          ∧ loop_state k (strtoll s).value (strtoll s).endptr = some (r, q)
          ∧ q.headD 0 = 0
          ∧ ∀ out2, eval_simple_expression s out2 = some (0, r) := by
  rcases eval_dichotomy s out with h | ⟨r, h⟩
  · exact Or.inl h
  · obtain ⟨h1, h2, k, q, hk, hq⟩ := eval_final s out r (h out)
    exact Or.inr ⟨r, k, q, h1, h2, hk, hq, h⟩

theorem decode_ref_length_aux (n : Nat) :
    ∀ s : List Nat, s.length ≤ n → (decode_ref s).length ≤ s.length := by
  induction n with
  | zero =>
    intro s h
    have : s = [] := List.length_eq_zero.1 (by omega)
    subst this; simp [decode_ref]
  | succ n ih =>
    intro s h
    cases s with
    | nil => simp [decode_ref]
    | cons c r =>
      simp only [List.length_cons] at h
      rw [decode_ref_cons]
      split_ifs
      · have h1 := ih (r.drop 2) (by simp only [List.length_drop]; omega)
        simp only [List.length_drop] at h1
        simp only [List.length_cons]
        omega
      · have h1 := ih r (by omega)
        simp only [List.length_cons]
        omega

theorem decode_ref_length (s : List Nat) : (decode_ref s).length ≤ s.length :=
  decode_ref_length_aux s.length s (le_refl _)

theorem cstr_length_le (s : List Nat) : (cstr s).length ≤ s.length :=
  (List.takeWhile_sublist _).length_le

/-- C14: the output of `url_decode` is never longer than its input, so with
its terminator it fits the `strlen(s) + 1` bytes allocated. -/
theorem url_decode_length (s : List Nat) :
    ∃ d, url_decode s = some d ∧ d.length ≤ s.length ∧ d.length + 1 ≤ strlen s + 1 := by
  refine ⟨decode_ref (cstr s), url_decode_eq s, ?_, ?_⟩
  · exact le_trans (decode_ref_length _) (cstr_length_le s)
  · have := decode_ref_length (cstr s)
    unfold strlen
    omega

/-! ## Method, path and query validation -/

theorem main_handle_evaluate (buf : List Nat) :
    main_handle buf =
      if (sscanf_request_line buf).1 ≠ 3 then
        some ⟨400, bytes "Bad Request", bytes "invalid request-line"⟩
      else if strcmp (sscanf_request_line buf).2.1 (bytes "GET") ≠ 0 then
        some ⟨405, bytes "Method Not Allowed", bytes "only GET allowed"⟩
      else
        match strstr (sscanf_request_line buf).2.2.1 (bytes "/calc?") with
        | none => some ⟨404, bytes "Not Found", bytes "expected /calc?query=..."⟩
        | some _ =>
          match strstr (sscanf_request_line buf).2.2.1 (bytes "query=") with
          | none => some ⟨400, bytes "Bad Request", bytes "missing query parameter"⟩
          | some query_str =>
            main_evaluate (copy_qval 0 (query_str.drop (strlen (bytes "query=")))) := by
  rfl

theorem strstr_none_iff (h n : List Nat) : strstr h n = none ↔ ¬ n <:+: h := by
  induction h with
  | nil =>
    cases n with
    | nil => simp [strstr]
    | cons a t => simp [strstr]
  | cons c cs ih =>
    rw [strstr, List.infix_cons_iff]
    by_cases hp : n.isPrefixOf (c :: cs) = true
    · rw [if_pos hp]
      have := List.isPrefixOf_iff_prefix.1 hp
      simp [this]
    · rw [if_neg hp, ih]
      have : ¬ n <+: c :: cs := fun h => hp (List.isPrefixOf_iff_prefix.2 h)
      simp [this]

theorem strstr_some (h n q : List Nat) (hq : strstr h n = some q) : q <:+ h ∧ n <+: q := by
  induction h with
  | nil =>
    cases n with
    | nil => simp [strstr] at hq; subst hq; simp
    | cons a t => simp [strstr] at hq
  | cons c cs ih =>
    rw [strstr] at hq
    by_cases hp : n.isPrefixOf (c :: cs) = true
    · rw [if_pos hp] at hq
      simp only [Option.some.injEq] at hq
      subst hq
      exact ⟨List.suffix_refl _, List.isPrefixOf_iff_prefix.1 hp⟩
    · rw [if_neg hp] at hq
      obtain ⟨h1, h2⟩ := ih hq
      exact ⟨List.suffix_cons_iff.2 (Or.inr h1), h2⟩

theorem strcmp_self (a : List Nat) : strcmp a a = 0 := by
  induction a with
  | nil => rfl
  | cons x t ih => simp [strcmp, ih]

/-- C11: a `GET` request of three tokens whose path contains `/calc?` and does
not contain `query=` is answered with 400 and the body
`missing query parameter`. -/
theorem main_handle_missing_query (buf : List Nat)
    (h3 : (sscanf_request_line buf).1 = 3)
    (hm : (sscanf_request_line buf).2.1 = bytes "GET")
    (hc : bytes "/calc?" <:+: (sscanf_request_line buf).2.2.1)
    (hq : ¬ bytes "query=" <:+: (sscanf_request_line buf).2.2.1) :
    main_handle buf = some ⟨400, bytes "Bad Request", bytes "missing query parameter"⟩ := by
  have h1 : strstr (sscanf_request_line buf).2.2.1 (bytes "query=") = none :=
    (strstr_none_iff _ _).2 hq
  obtain ⟨p, hp⟩ : ∃ p, strstr (sscanf_request_line buf).2.2.1 (bytes "/calc?") = some p := by
    cases hs : strstr (sscanf_request_line buf).2.2.1 (bytes "/calc?") with
    | none => exact absurd hc ((strstr_none_iff _ _).1 hs)
    | some p => exact ⟨p, rfl⟩
  rw [main_handle_evaluate, h3, hm, strcmp_self, hp, h1]
  simp

/-- Witness of C11: the request `GET /calc? HTTP/1.1`. -/
theorem main_handle_missing_query_witness :
    (sscanf_request_line (bytes "GET /calc? HTTP/1.1")).2.2.1 = bytes "/calc?"
    ∧ main_handle (bytes "GET /calc? HTTP/1.1")
      = some ⟨400, bytes "Bad Request", bytes "missing query parameter"⟩ :=
  ⟨by decide,
    main_handle_missing_query (bytes "GET /calc? HTTP/1.1") (by decide) (by decide)
      (by decide) (by decide)⟩

/-! ## The path token and the query value -/

theorem scan_token_facts (w : Nat) (s : List Nat) :
    (scan_token w s).1.length ≤ w
      ∧ (∀ x ∈ (scan_token w s).1, isspace x = false)
      ∧ (∀ x ∈ (scan_token w s).2, x ∈ s) := by
  induction s generalizing w with
  | nil => cases w <;> simp [scan_token]
  | cons c cs ih =>
    cases w with
    | zero => simp [scan_token]
    | succ w =>
      by_cases hc : isspace c = true
      · simp [scan_token, hc]
      · have hc2 : isspace c = false := by simpa using hc
        obtain ⟨h1, h2, h3⟩ := ih w
        simp only [scan_token, hc2, Bool.false_eq_true, if_false, List.length_cons,
          List.mem_cons]
        refine ⟨by omega, ?_, ?_⟩
        · rintro x (rfl | hx)
          · exact hc2
          · exact h2 x hx
        · intro x hx
          exact Or.inr (h3 x hx)

theorem conv_s_facts (w : Nat) (input tok rest : List Nat)
    (h : conv_s w input = some (tok, rest)) :
    tok.length ≤ w ∧ (∀ x ∈ tok, isspace x = false) ∧ (∀ x ∈ tok, x ∈ input)
      ∧ (∀ x ∈ rest, x ∈ input) := by
  unfold conv_s at h
  simp only [] at h
  split at h
  · exact absurd h (by simp)
  · simp only [Option.some.injEq] at h
    obtain ⟨h1, h2, h3⟩ := scan_token_facts w (input.dropWhile isspace)
    have h4 := scan_token_mem w (input.dropWhile isspace)
    rw [h] at h1 h2 h3 h4
    have hsub : ∀ x ∈ input.dropWhile isspace, x ∈ input :=
      fun x hx => (List.dropWhile_sublist _).subset hx
    exact ⟨h1, h2, fun x hx => hsub x (h4 x hx), fun x hx => hsub x (h3 x hx)⟩

/-- The path token of a request line has at most 1023 characters, none of them
NUL or white space. -/
theorem sscanf_path_facts (buf : List Nat) :
    (sscanf_request_line buf).2.2.1.length ≤ 1023
      ∧ 0 ∉ (sscanf_request_line buf).2.2.1
      ∧ ∀ x ∈ (sscanf_request_line buf).2.2.1, isspace x = false := by
  unfold sscanf_request_line
  cases h1 : conv_s 15 (cstr buf) with
  | none => simp
  | some mr =>
    obtain ⟨method, r1⟩ := mr
    obtain ⟨-, -, -, hr1⟩ := conv_s_facts _ _ _ _ h1
    cases h2 : conv_s 1023 (r1.dropWhile isspace) with
    | none => simp only [h2]; simp
    | some pr =>
      obtain ⟨path, r2⟩ := pr
      obtain ⟨hl, hns, hmem, -⟩ := conv_s_facts _ _ _ _ h2
      have hnul : 0 ∉ path := by
        intro h0
        have a := hmem 0 h0
        have b := hr1 0 ((List.dropWhile_sublist _).subset a)
        exact cstr_no_nul buf b
      cases h3 : conv_s 31 (r2.dropWhile isspace) with
      | none => simp only [h2, h3]; exact ⟨hl, hnul, hns⟩
      | some qr => simp only [h2, h3]; exact ⟨hl, hnul, hns⟩

theorem copy_qval_uncapped (t : List Nat) :
    ∀ i : Nat, i + t.length < 1024 → copy_qval i t = copy_uncapped t := by
  induction t with
  | nil => intro i _; rfl
  | cons c cs ih =>
    intro i h
    simp only [List.length_cons] at h
    have hi : i + 1 < 1024 := by omega
    by_cases hc : c ≠ 0 ∧ c ≠ 32 ∧ c ≠ 38
    · rw [copy_qval, if_pos ⟨hc.1, hc.2.1, hc.2.2, hi⟩, ih (i + 1) (by omega)]
      simp [copy_uncapped, List.takeWhile_cons, hc.1, hc.2.1, hc.2.2]
    · rw [copy_qval, if_neg (fun h => hc ⟨h.1, h.2.1, h.2.2.1⟩)]
      have : (c != 0 && c != 32 && c != 38) = false := by
        by_contra hh
        apply hc
        simpa using hh
      simp [copy_uncapped, List.takeWhile_cons, this]

/-- The text after the first `query=` of a path token has at most 1017
characters, none of them NUL or white space. -/
theorem query_text_facts (buf q : List Nat)
    (hq : strstr (sscanf_request_line buf).2.2.1 (bytes "query=") = some q) :
    (q.drop (strlen (bytes "query="))).length ≤ 1017
      ∧ 0 ∉ q.drop (strlen (bytes "query="))
      ∧ ∀ x ∈ q.drop (strlen (bytes "query=")), isspace x = false := by
  obtain ⟨hl, hnul, hns⟩ := sscanf_path_facts buf
  obtain ⟨hsuf, hpre⟩ := strstr_some _ _ _ hq
  have h6 : strlen (bytes "query=") = 6 := by decide
  have hlen : q.length ≤ 1023 := le_trans hsuf.length_le hl
  have hq6 : 6 ≤ q.length := by
    have := hpre.length_le
    rw [bytes_query] at this
    simpa using this
  have hsub : ∀ x ∈ q.drop 6, x ∈ (sscanf_request_line buf).2.2.1 :=
    fun x hx => hsuf.subset ((List.drop_sublist _ _).subset hx)
  rw [h6]
  refine ⟨by simp only [List.length_drop]; omega, fun h0 => hnul (hsub 0 h0),
    fun x hx => hns x (hsub x hx)⟩

theorem prefix_takeWhile (P : Nat → Bool) (v : List Nat) :
    ∀ t : List Nat, v <+: t → (∀ c ∈ v, P c = true) → v <+: t.takeWhile P := by
  induction v with
  | nil => intro t _ _; exact List.nil_prefix
  | cons a v ih =>
    intro t hp hall
    cases t with
    | nil => simp at hp
    | cons b t =>
      obtain ⟨rfl, hp2⟩ := List.cons_prefix_cons.1 hp
      have ha : P a = true := hall a (List.mem_cons_self _ _)
      rw [List.takeWhile_cons, if_pos ha]
      exact List.cons_prefix_cons.2
        ⟨rfl, ih t hp2 (fun c hc => hall c (List.mem_cons_of_mem _ hc))⟩

theorem copy_uncapped_no_nul (t : List Nat) (h0 : 0 ∉ t) :
    copy_uncapped t = t.takeWhile (fun c => c != 32 && c != 38) := by
  induction t with
  | nil => rfl
  | cons c cs ih =>
    simp only [List.mem_cons, not_or] at h0
    have hc : (c != 0) = true := by simpa using fun e => h0.1 e.symm
    simp only [copy_uncapped, List.takeWhile_cons, hc, Bool.true_and] at ih ⊢
    rw [ih h0.2]

theorem copy_uncapped_stop (t : List Nat) :
    t.getD (copy_uncapped t).length 0 = 0 ∨ t.getD (copy_uncapped t).length 0 = 32
      ∨ t.getD (copy_uncapped t).length 0 = 38 := by
  induction t with
  | nil => left; rfl
  | cons c cs ih =>
    by_cases hc : (c != 0 && c != 32 && c != 38) = true
    · simp only [copy_uncapped, List.takeWhile_cons, hc, if_true, List.length_cons,
        List.getD_cons_succ] at ih ⊢
      exact ih
    · simp only [copy_uncapped, List.takeWhile_cons, hc, Bool.false_eq_true, if_false,
        List.length_nil, List.getD_cons_zero]
      simp only [Bool.and_eq_true, bne_iff_ne, ne_eq, not_and, Decidable.not_not] at hc
      by_cases h0 : c = 0
      · exact Or.inl h0
      · by_cases h32 : c = 32
        · exact Or.inr (Or.inl h32)
        · exact Or.inr (Or.inr (hc ⟨h0, h32⟩))

theorem getD_mem_or_default (t : List Nat) (k : Nat) : t.getD k 0 = 0 ∨ t.getD k 0 ∈ t := by
  by_cases hk : k < t.length
  · right
    rw [List.getD_eq_getElem _ _ hk]
    exact List.getElem_mem _
  · left
    exact List.getD_eq_default _ _ (by omega)

/-- C13: the query value extracted in `main` is the longest prefix of the text
that follows `query=` containing neither a space nor `&`: it is what precedes
the first space or `&` (or the end), it is a prefix of the text, it contains
no delimiter, and every prefix of the text without delimiter is a prefix of
it. -/
theorem main_query_value (buf q t : List Nat)
    (hq : strstr (sscanf_request_line buf).2.2.1 (bytes "query=") = some q)
    (ht : t = q.drop (strlen (bytes "query="))) :
    copy_qval 0 t = t.takeWhile (fun c => c != 32 && c != 38)
      ∧ copy_qval 0 t <+: t
      ∧ (∀ c ∈ copy_qval 0 t, c ≠ 32 ∧ c ≠ 38)
      ∧ ∀ v, v <+: t → (∀ c ∈ v, c ≠ 32 ∧ c ≠ 38) → v <+: copy_qval 0 t := by
  obtain ⟨hl, hnul, -⟩ := query_text_facts buf q hq
  rw [← ht] at hl hnul
  have e : copy_qval 0 t = t.takeWhile (fun c => c != 32 && c != 38) := by
    rw [copy_qval_uncapped t 0 (by omega), copy_uncapped_no_nul t hnul]
  rw [e]
  refine ⟨rfl, List.takeWhile_prefix _, ?_, ?_⟩
  · intro c hc
    have := List.mem_takeWhile_imp hc
    simpa using this
  · intro v hv hall
    apply prefix_takeWhile _ v t hv
    intro c hc
    have := hall c hc
    simp [this.1, this.2]

/-- Witness of C13: in `/calc?query=1+2&x=9` the value is `1+2`. -/
theorem main_query_value_witness :
    (sscanf_request_line (bytes "GET /calc?query=1+2&x=9 HTTP/1.1")).2.2.1
        = bytes "/calc?query=1+2&x=9"
    ∧ copy_qval 0 (bytes "1+2&x=9") = bytes "1+2"
    ∧ copy_qval 0 (bytes "1+2&x=9")
        = (bytes "1+2&x=9").takeWhile (fun c => c != 32 && c != 38) :=
  ⟨by decide, by decide,
    (main_query_value (bytes "GET /calc?query=1+2&x=9 HTTP/1.1") (bytes "query=1+2&x=9")
      (bytes "1+2&x=9") (by decide) (by decide)).1⟩

/-- C18: the cap `i + 1 < 1024` never stops the copy loop of `main`: the text
after `query=` has at most 1017 characters, the loop stops at an index below
the cap, on a `&` or on the end of the path, and the value copied is the one
an uncapped loop copies. -/
theorem main_copy_cap_unused (buf q t : List Nat)
    (hq : strstr (sscanf_request_line buf).2.2.1 (bytes "query=") = some q)
    (ht : t = q.drop (strlen (bytes "query="))) :
    t.length ≤ 1017
      ∧ (copy_qval 0 t).length + 1 < 1024
      ∧ (t.getD (copy_qval 0 t).length 0 = 0 ∨ t.getD (copy_qval 0 t).length 0 = 38)
      ∧ copy_qval 0 t = copy_uncapped t := by
  obtain ⟨hl, hnul, hns⟩ := query_text_facts buf q hq
  rw [← ht] at hl hnul hns
  have e : copy_qval 0 t = copy_uncapped t := copy_qval_uncapped t 0 (by omega)
  have hlen : (copy_uncapped t).length ≤ t.length := (List.takeWhile_sublist _).length_le
  rw [e]
  refine ⟨hl, by omega, ?_, rfl⟩
  rcases copy_uncapped_stop t with h | h | h
  · exact Or.inl h
  · rcases getD_mem_or_default t (copy_uncapped t).length with h2 | h2
    · exact Or.inl h2
    · rw [h] at h2
      exact absurd (hns 32 h2) (by decide)
  · exact Or.inr h

/-- Witness of C18: the request `GET /calc?query=1+2&x=9 HTTP/1.1`. -/
theorem main_copy_cap_unused_witness :
    (bytes "1+2&x=9").getD (copy_qval 0 (bytes "1+2&x=9")).length 0 = 38
    ∧ (copy_qval 0 (bytes "1+2&x=9")).length + 1 < 1024 :=
  ⟨by decide,
    (main_copy_cap_unused (bytes "GET /calc?query=1+2&x=9 HTTP/1.1") (bytes "query=1+2&x=9")
      (bytes "1+2&x=9") (by decide) (by decide)).2.1⟩

/-- C12: a `GET` request that passes the method, path and `query=` checks and
whose decoded query value makes `eval_simple_expression` fail is answered with
400 and the body `invalid expression`. -/
theorem main_handle_invalid_expression (buf q d : List Nat) (out : Int)
    (h3 : (sscanf_request_line buf).1 = 3)
    (hm : (sscanf_request_line buf).2.1 = bytes "GET")
    (hc : bytes "/calc?" <:+: (sscanf_request_line buf).2.2.1)
    (hq : strstr (sscanf_request_line buf).2.2.1 (bytes "query=") = some q)
    (hd : url_decode (copy_qval 0 (q.drop (strlen (bytes "query=")))) = some d)
    (he : eval_simple_expression d out = some (-1, out)) :
    main_handle buf = some ⟨400, bytes "Bad Request", bytes "invalid expression"⟩ := by
  obtain ⟨p, hp⟩ : ∃ p, strstr (sscanf_request_line buf).2.2.1 (bytes "/calc?") = some p := by
    cases hs : strstr (sscanf_request_line buf).2.2.1 (bytes "/calc?") with
    | none => exact absurd hc ((strstr_none_iff _ _).1 hs)
    | some p => exact ⟨p, rfl⟩
  have he0 : eval_simple_expression d 0 = some (-1, 0) := by
    rcases eval_dichotomy d 0 with h | ⟨r, h⟩
    · exact h
    · rw [h out] at he
      exact absurd he (by simp)
  rw [main_handle_evaluate, h3, hm, strcmp_self, hp, hq]
  simp only [ne_eq, not_true_eq_false, if_false, main_evaluate, hd, he0]
  simp

/-- Witness of C12: `GET /calc?query=abc HTTP/1.1` is answered with 400. -/
theorem main_handle_invalid_expression_witness :
    eval_simple_expression (bytes "abc") 0 = some (-1, 0)
    ∧ main_handle (bytes "GET /calc?query=abc HTTP/1.1")
      = some ⟨400, bytes "Bad Request", bytes "invalid expression"⟩ :=
  ⟨by decide,
    main_handle_invalid_expression (bytes "GET /calc?query=abc HTTP/1.1") (bytes "query=abc")
      (bytes "abc") 0 (by decide) (by decide) (by decide) (by decide) (by decide)
      (by decide)⟩

/-- C16, the code at the failing input: in `/calc?xquery=1&query=2` the value
is taken after the first `query=`, which is the end of the key `xquery`, and
the response has the body `1`, not `2`. -/
theorem main_handle_first_query_text :
    main_handle (bytes "GET /calc?xquery=1&query=2 HTTP/1.1")
      = some ⟨200, bytes "OK", bytes "1"⟩ := by
  decide

/-! ## The reads of `url_decode` -/

theorem url_decode_trace_output (s : List Nat) :
    ∀ (fuel p : Nat) (out reads : List Nat),
      (url_decode_trace s fuel p out reads).map Prod.fst = url_decode_loop s fuel p out := by
  intro fuel
  induction fuel with
  | zero => intro p out reads; rfl
  | succ n ih =>
    intro p out reads
    rw [url_decode_trace, url_decode_loop]
    by_cases h0 : s.getD p 0 = 0
    · rw [if_pos h0, if_pos h0]; rfl
    rw [if_neg h0, if_neg h0]
    by_cases h1 : s.getD p 0 = 37
    · rw [if_neg (not_not.2 h1)]
      by_cases h2 : isxdigit (s.getD (p + 1) 0) = true
      · rw [if_neg (by rw [h2]; decide)]
        by_cases h3 : isxdigit (s.getD (p + 2) 0) = true
        · rw [if_neg (by rw [h3]; decide), if_pos ⟨h1, h2, h3⟩]
          exact ih _ _ _
        · rw [if_pos (Bool.eq_false_iff.2 h3), if_neg (fun h => h3 h.2.2)]
          exact ih _ _ _
      · rw [if_pos (Bool.eq_false_iff.2 h2), if_neg (fun h => h2 h.2.1)]
        exact ih _ _ _
    · rw [if_pos h1, if_neg (fun h => h1 h.1)]
      exact ih _ _ _

theorem cstr_stop (s : List Nat) : s.getD (strlen s) 0 = 0 := by
  induction s with
  | nil => rfl
  | cons c cs ih =>
    by_cases hc : c = 0
    · simp [strlen, cstr_cons, hc]
    · simp only [strlen, cstr_cons, hc, if_false, List.length_cons, List.getD_cons_succ]
      exact ih

theorem nonzero_below_strlen (s : List Nat) (i : Nat) (hi : i ≤ strlen s)
    (h : s.getD i 0 ≠ 0) : i + 1 ≤ strlen s := by
  rcases Nat.lt_or_eq_of_le hi with h1 | h1
  · exact h1
  · rw [h1] at h
    exact absurd (cstr_stop s) h

theorem isxdigit_false_zero : isxdigit 0 = false := by decide

theorem url_decode_trace_bound (s : List Nat) :
    ∀ (fuel p : Nat) (out reads : List Nat) (res : List Nat × List Nat),
      p ≤ strlen s → (∀ i ∈ reads, i ≤ strlen s) →
      url_decode_trace s fuel p out reads = some res → ∀ i ∈ res.2, i ≤ strlen s := by
  intro fuel
  induction fuel with
  | zero => intro p out reads res _ _ h; simp [url_decode_trace] at h
  | succ n ih =>
    intro p out reads res hp hr h
    rw [url_decode_trace] at h
    by_cases h0 : s.getD p 0 = 0
    · rw [if_pos h0] at h
      simp only [Option.some.injEq] at h
      rw [← h]
      intro i hi
      rcases List.mem_append.1 hi with hi | hi
      · exact hr i hi
      · simp only [List.mem_singleton] at hi
        omega
    rw [if_neg h0] at h
    have hp1 : p + 1 ≤ strlen s := nonzero_below_strlen s p hp h0
    by_cases h1 : s.getD p 0 = 37
    · rw [if_neg (not_not.2 h1)] at h
      by_cases h2 : isxdigit (s.getD (p + 1) 0) = true
      · rw [if_neg (by rw [h2]; decide)] at h
        have hp2 : p + 1 + 1 ≤ strlen s :=
          nonzero_below_strlen s (p + 1) hp1 (isxdigit_ne_zero _ h2)
        by_cases h3 : isxdigit (s.getD (p + 2) 0) = true
        · rw [if_neg (by rw [h3]; decide)] at h
          have hp3 : p + 2 + 1 ≤ strlen s :=
            nonzero_below_strlen s (p + 2) hp2 (isxdigit_ne_zero _ h3)
          refine ih _ _ _ _ hp3 ?_ h
          intro i hi
          rcases List.mem_append.1 hi with hi | hi
          · exact hr i hi
          · simp only [List.mem_cons, List.mem_singleton, List.not_mem_nil, or_false] at hi
            omega
        · rw [if_pos (Bool.eq_false_iff.2 h3)] at h
          refine ih _ _ _ _ hp1 ?_ h
          intro i hi
          rcases List.mem_append.1 hi with hi | hi
          · exact hr i hi
          · simp only [List.mem_cons, List.mem_singleton, List.not_mem_nil, or_false] at hi
            omega
      · rw [if_pos (Bool.eq_false_iff.2 h2)] at h
        refine ih _ _ _ _ hp1 ?_ h
        intro i hi
        rcases List.mem_append.1 hi with hi | hi
        · exact hr i hi
        · simp only [List.mem_cons, List.mem_singleton, List.not_mem_nil, or_false] at hi
          omega
    · rw [if_pos h1] at h
      refine ih _ _ _ _ hp1 ?_ h
      intro i hi
      rcases List.mem_append.1 hi with hi | hi
      · exact hr i hi
      · simp only [List.mem_cons, List.mem_singleton, List.not_mem_nil, or_false] at hi
        omega

/-- C20: on every input `url_decode` terminates and reads in `s` only offsets
from `0` to `strlen s`, the offset of the terminator: the run with the reads
recorded returns, its output is the output of `url_decode`, and no offset read
is past the terminator (so `p[1]` and `p[2]` are read only after a byte that is
not the terminator). -/
theorem url_decode_reads_in_bounds (s : List Nat) :
    ∃ out reads, url_decode_reads s = some (out, reads) ∧ url_decode s = some out
      ∧ ∀ i ∈ reads, i ≤ strlen s := by
  have hout := url_decode_trace_output s (strlen s + 1) 0 [] []
  have hdec := url_decode_eq s
  unfold url_decode at hdec
  rw [hdec] at hout
  cases hres : url_decode_trace s (strlen s + 1) 0 [] [] with
  | none => rw [hres] at hout; simp at hout
  | some res =>
    obtain ⟨out, reads⟩ := res
    rw [hres] at hout
    simp only [Option.map_some', Option.some.injEq] at hout
    refine ⟨out, reads, hres, ?_, ?_⟩
    · rw [url_decode_eq, hout]
    · exact url_decode_trace_bound s _ _ _ _ _ (Nat.zero_le _) (by simp) hres

/-! ## A NUL byte in the decoded text -/

theorem dropWhile_append_nul (P : Nat → Bool) (hP : P 0 = false) (a b : List Nat) :
    (a ++ 0 :: b).dropWhile P = a.dropWhile P ++ 0 :: b := by
  induction a with
  | nil => simp [List.dropWhile_cons, hP]
  | cons c t ih =>
    by_cases hc : P c = true
    · simp [List.dropWhile_cons, hc, ih]
    · simp [List.dropWhile_cons, hc]

theorem takeWhile_append_nul (P : Nat → Bool) (hP : P 0 = false) (a b : List Nat) :
    (a ++ 0 :: b).takeWhile P = a.takeWhile P := by
  induction a with
  | nil => simp [List.takeWhile_cons, hP]
  | cons c t ih =>
    by_cases hc : P c = true
    · simp [List.takeWhile_cons, hc, ih]
    · simp [List.takeWhile_cons, hc]

theorem skip_sign_append_nul (a b : List Nat) :
    skip_sign (a ++ 0 :: b) = skip_sign a ++ 0 :: b := by
  cases a with
  | nil => rfl
  | cons c t =>
    rw [List.cons_append, skip_sign_cons, skip_sign_cons]
    split <;> rfl

theorem has_minus_append_nul (a b : List Nat) : has_minus (a ++ 0 :: b) = has_minus a := by
  cases a with
  | nil => rfl
  | cons c t => rw [List.cons_append, has_minus_cons, has_minus_cons]

theorem isspace_zero : isspace 0 = false := by decide

theorem isdigit_zero : isdigit 0 = false := by decide

theorem strtoll_append_nul (a b : List Nat) :
    strtoll (a ++ 0 :: b) =
      { value := (strtoll a).value, endptr := (strtoll a).endptr ++ 0 :: b,
        converted := (strtoll a).converted, erange := (strtoll a).erange } := by
  unfold strtoll
  simp only [dropWhile_append_nul isspace isspace_zero, skip_sign_append_nul,
    has_minus_append_nul, takeWhile_append_nul isdigit isdigit_zero,
    dropWhile_append_nul isdigit isdigit_zero]
  split_ifs <;> rfl

theorem headD_append_nul (a b : List Nat) : (a ++ 0 :: b).headD 0 = a.headD 0 := by
  cases a <;> rfl

theorem eval_loop_append_nul (fuel : Nat) :
    ∀ (acc : Int) (p b : List Nat) (out : Int),
      eval_loop fuel acc (p ++ 0 :: b) out = eval_loop fuel acc p out := by
  induction fuel with
  | zero => intro acc p b out; rfl
  | succ n ih =>
    intro acc p b out
    have htail : ∀ x : List Nat, x.headD 0 ≠ 0 → (x ++ 0 :: b).tail = x.tail ++ 0 :: b := by
      intro x hx
      cases x with
      | nil => exact absurd rfl hx
      | cons c t => rfl
    simp only [eval_loop, headD_append_nul, dropWhile_append_nul isspace isspace_zero]
    by_cases h1 : p.headD 0 = 0
    · rw [if_pos h1, if_pos h1]
    rw [if_neg h1, if_neg h1]
    by_cases h2 : (p.dropWhile isspace).headD 0 ≠ 43 ∧ (p.dropWhile isspace).headD 0 ≠ 45
    · rw [if_pos h2, if_pos h2]
    rw [if_neg h2, if_neg h2]
    have hne : (p.dropWhile isspace).headD 0 ≠ 0 := by
      intro e
      apply h2
      rw [e]
      exact ⟨by decide, by decide⟩
    rw [htail _ hne, dropWhile_append_nul isspace isspace_zero, headD_append_nul,
      strtoll_append_nul]
    simp only []
    split_ifs <;> first | rfl | exact ih _ _ _ _

theorem eval_loop_fuel (fuel : Nat) :
    ∀ (fuel2 : Nat) (acc : Int) (p : List Nat) (out : Int),
      p.length < fuel → p.length < fuel2 →
      eval_loop fuel acc p out = eval_loop fuel2 acc p out := by
  induction fuel with
  | zero => intro fuel2 acc p out h; omega
  | succ n ih =>
    intro fuel2 acc p out h h2
    cases fuel2 with
    | zero => omega
    | succ m =>
      simp only [eval_loop]
      by_cases h1 : p.headD 0 = 0
      · rw [if_pos h1, if_pos h1]
      rw [if_neg h1, if_neg h1]
      by_cases h3 : (p.dropWhile isspace).headD 0 ≠ 43 ∧ (p.dropWhile isspace).headD 0 ≠ 45
      · rw [if_pos h3, if_pos h3]
      rw [if_neg h3, if_neg h3]
      have a1 := strtoll_endptr_length ((p.dropWhile isspace).tail.dropWhile isspace)
      have a2 : ((p.dropWhile isspace).tail.dropWhile isspace).length
          ≤ (p.dropWhile isspace).tail.length := (List.dropWhile_sublist _).length_le
      have a3 : (p.dropWhile isspace).length ≤ p.length := (List.dropWhile_sublist _).length_le
      have a4 : (p.dropWhile isspace) ≠ [] := by
        intro e
        rw [e] at h3
        simp at h3
      have a5 : (p.dropWhile isspace).tail.length + 1 = (p.dropWhile isspace).length := by
        cases hp : p.dropWhile isspace with
        | nil => exact absurd hp a4
        | cons c t => simp
      split_ifs <;> first | rfl | exact ih _ _ _ _ (by omega) (by omega)

/-- The evaluator sees its input up to the first NUL. -/
theorem eval_append_nul (a b : List Nat) (out : Int) :
    eval_simple_expression (a ++ 0 :: b) out = eval_simple_expression a out := by
  unfold eval_simple_expression
  rw [strtoll_append_nul]
  simp only []
  have hl := strtoll_endptr_length a
  split_ifs
  · rfl
  · rfl
  · rw [eval_loop_append_nul]
    exact eval_loop_fuel _ _ _ _ _ (by simp only [List.length_append, List.length_cons]; omega)
      (by omega)

theorem bytes_nul_escape : bytes "%00" = [37, 48, 48] := by decide

theorem decode_ref_nul_escape (x : List Nat) :
    decode_ref (37 :: 48 :: 48 :: x) = 0 :: decode_ref x := by
  rw [decode_ref]
  have h : isxdigit 48 = true := by decide
  simp [h, hexval]

theorem decode_ref_append_escape_aux (x : List Nat) (n : Nat) :
    ∀ u : List Nat, u.length ≤ n →
      decode_ref (u ++ 37 :: 48 :: 48 :: x) = decode_ref u ++ 0 :: decode_ref x := by
  induction n with
  | zero =>
    intro u h
    have : u = [] := List.length_eq_zero.1 (by omega)
    subst this
    simpa [decode_ref] using decode_ref_nul_escape x
  | succ n ih =>
    intro u h
    match u, h with
    | [], _ => simpa [decode_ref] using decode_ref_nul_escape x
    | [c], _ =>
      have h37 : isxdigit 37 = false := by decide
      rw [List.singleton_append, decode_ref_cons]
      simp only [List.getD_cons_zero, h37, Bool.false_eq_true, false_and, and_false, if_false]
      rw [decode_ref_nul_escape]
      simp [decode_ref]
    | [c, a], h =>
      have h37 : isxdigit 37 = false := by decide
      have e : [c, a] ++ 37 :: 48 :: 48 :: x = c :: ([a] ++ 37 :: 48 :: 48 :: x) := rfl
      rw [e, decode_ref_cons]
      simp only [List.singleton_append, List.getD_cons_zero, List.getD_cons_succ, h37,
        Bool.false_eq_true, and_false, if_false]
      have := ih [a] (by simp at h ⊢; omega)
      rw [List.singleton_append] at this
      rw [this]
      simp [decode_ref]
    | c :: a :: b :: r, h =>
      have e : (c :: a :: b :: r) ++ 37 :: 48 :: 48 :: x
          = c :: a :: b :: (r ++ 37 :: 48 :: 48 :: x) := rfl
      simp only [List.length_cons] at h
      rw [e, decode_ref, decode_ref]
      split_ifs
      · rw [ih r (by omega)]; rfl
      · have := ih (a :: b :: r) (by simp only [List.length_cons]; omega)
        rw [List.cons_append, List.cons_append] at this
        rw [this]; rfl

theorem decode_ref_append_escape (u x : List Nat) :
    decode_ref (u ++ 37 :: 48 :: 48 :: x) = decode_ref u ++ 0 :: decode_ref x :=
  decode_ref_append_escape_aux x u.length u (le_refl _)

theorem hexval_zero (a : Nat) (h : hexval a = 0) : a = 48 := by
  unfold hexval at h
  split_ifs at h
  all_goals omega

theorem hex_pair_zero (a b : Nat) (h : 16 * hexval a + hexval b = 0) : a = 48 ∧ b = 48 :=
  ⟨hexval_zero a (by omega), hexval_zero b (by omega)⟩

theorem decode_ref_no_nul_aux (n : Nat) :
    ∀ u : List Nat, u.length ≤ n → 0 ∉ u → ¬ [37, 48, 48] <:+: u →
      0 ∉ decode_ref u := by
  induction n with
  | zero =>
    intro u h _ _
    have : u = [] := List.length_eq_zero.1 (by omega)
    subst this
    simp [decode_ref]
  | succ n ih =>
    intro u h h0 hin
    cases u with
    | nil => simp [decode_ref]
    | cons c r =>
      simp only [List.length_cons] at h
      simp only [List.mem_cons, not_or] at h0
      have hr : ¬ [37, 48, 48] <:+: r := fun hh => hin (List.infix_cons hh)
      rw [decode_ref_cons]
      split_ifs with hesc
      · obtain ⟨hc, ha, hb⟩ := hesc
        match r, ha, hb, hr, h0, h, hin with
        | [], ha, _, _, _, _, _ => simp [isxdigit, isdigit] at ha
        | [a], _, hb, _, _, _, _ => simp [isxdigit, isdigit] at hb
        | a :: b :: r2, ha, hb, hr, h0, h, hin =>
          simp only [List.getD_cons_zero, List.getD_cons_succ] at ha hb ⊢
          simp only [List.drop_succ_cons, List.drop_zero, List.mem_cons, not_or]
          simp only [List.mem_cons, not_or] at h0
          simp only [List.length_cons] at h
          refine ⟨?_, ih r2 (by omega) h0.2.2.2 ?_⟩
          · intro hz
            obtain ⟨ea, eb⟩ := hex_pair_zero a b hz.symm
            apply hin
            rw [hc, ea, eb]
            exact (List.prefix_append [37, 48, 48] r2).isInfix
          · exact fun hh => hr (List.infix_cons (List.infix_cons hh))
      · simp only [List.mem_cons, not_or]
        exact ⟨h0.1, ih r (by omega) h0.2 hr⟩

theorem decode_ref_no_nul (u : List Nat) (h0 : 0 ∉ u) (hin : ¬ [37, 48, 48] <:+: u) :
    0 ∉ decode_ref u :=
  decode_ref_no_nul_aux u.length u (le_refl _) h0 hin

/-- The handler answers a query value whose decoding holds a NUL as it
answers the text decoded before the NUL. -/
theorem main_evaluate_nul (u x : List Nat) (h0 : 0 ∉ u) :
    url_decode (u ++ 37 :: 48 :: 48 :: x)
        = some (decode_ref u ++ 0 :: decode_ref (cstr x))
      ∧ main_evaluate (u ++ 37 :: 48 :: 48 :: x) = main_evaluate u := by
  have hpre : 0 ∉ u ++ [37, 48, 48] := by
    simp only [List.mem_append, not_or]
    exact ⟨h0, by decide⟩
  have e : u ++ 37 :: 48 :: 48 :: x = (u ++ [37, 48, 48]) ++ x := by simp
  have hd : url_decode (u ++ 37 :: 48 :: 48 :: x)
      = some (decode_ref u ++ 0 :: decode_ref (cstr x)) := by
    rw [url_decode_eq, e, cstr_append _ _ hpre]
    have e2 : u ++ [37, 48, 48] ++ cstr x = u ++ 37 :: 48 :: 48 :: cstr x := by simp
    rw [e2, decode_ref_append_escape]
  refine ⟨hd, ?_⟩
  unfold main_evaluate
  rw [hd, url_decode_eq u, cstr_eq_self u h0]
  simp only [eval_append_nul]

/-- C19: for a query value `u%00w` where `u` has no NUL and no `%00`, the
decoded text is the decoding of `u`, a zero byte and the decoding of `w`; the
string that `eval_simple_expression` sees ends at that zero byte, so it is the
decoding of `u`, and the response is the response to the query value `u`. -/
theorem main_evaluate_nul_escape (u w : List Nat) (h0 : 0 ∉ u)
    (hu : ¬ bytes "%00" <:+: u) :
    url_decode u = some (decode_ref u)
      ∧ url_decode (u ++ bytes "%00" ++ w)
          = some (decode_ref u ++ 0 :: decode_ref (cstr w))
      ∧ cstr (decode_ref u ++ 0 :: decode_ref (cstr w)) = decode_ref u
      ∧ (∀ out, eval_simple_expression (decode_ref u ++ 0 :: decode_ref (cstr w)) out
          = eval_simple_expression (decode_ref u) out)
      ∧ main_evaluate (u ++ bytes "%00" ++ w) = main_evaluate u := by
  rw [bytes_nul_escape] at hu
  have hd0 : 0 ∉ decode_ref u := decode_ref_no_nul u h0 hu
  have e : u ++ bytes "%00" ++ w = u ++ 37 :: 48 :: 48 :: w := by
    rw [bytes_nul_escape]; simp
  obtain ⟨h1, h2⟩ := main_evaluate_nul u w h0
  refine ⟨?_, ?_, ?_, ?_, ?_⟩
  · rw [url_decode_eq, cstr_eq_self u h0]
  · rw [e, h1]
  · rw [cstr_append _ _ hd0, cstr_cons, if_pos rfl, List.append_nil]
  · exact fun out => eval_append_nul _ _ out
  · rw [e, h2]

/-- Witness of C19: the query value `1%00abc` is answered with 200 and the
body `1`, as the query value `1` is. -/
theorem main_evaluate_nul_escape_witness :
    main_handle (bytes "GET /calc?query=1%00abc HTTP/1.1")
        = some ⟨200, bytes "OK", bytes "1"⟩
    ∧ main_evaluate (bytes "1") = some ⟨200, bytes "OK", bytes "1"⟩
    ∧ main_evaluate (bytes "1" ++ bytes "%00" ++ bytes "abc") = main_evaluate (bytes "1") :=
  ⟨by decide, by decide,
    (main_evaluate_nul_escape (bytes "1") (bytes "abc") (by decide) (by decide)).2.2.2.2⟩

/-! ## The response writer -/

theorem fmt_lld_nat (n : Nat) : fmt_lld (n : Int) = fmt_zu n := by
  unfold fmt_lld fmt_zu
  rw [if_neg (by omega)]
  simp

theorem printf_header (code : Int) (phrase : List Nat) (n : Nat) :
    printf_text
        (bytes "HTTP/1.1 %d %s\r\nContent-Length: %zu\r\nContent-Type: text/plain\r\n\r\n")
        [PrintfArg.int code, PrintfArg.str phrase, PrintfArg.size n]
      = response_header code (cstr phrase) n := by
  have e1 : bytes "HTTP/1.1 " = [72, 84, 84, 80, 47, 49, 46, 49, 32] := by decide
  have e2 : bytes "Content-Length: "
      = [67, 111, 110, 116, 101, 110, 116, 45, 76, 101, 110, 103, 116, 104, 58, 32] := by
    decide
  have e3 : bytes "Content-Type: text/plain"
      = [67, 111, 110, 116, 101, 110, 116, 45, 84, 121, 112, 101, 58, 32, 116, 101, 120, 116,
          47, 112, 108, 97, 105, 110] := by
    decide
  rw [response_header, fmt_lld_nat, e1, e2, e3]
  simp only [crlf, List.append_assoc, List.cons_append, List.nil_append]
  rfl

theorem body_bytes_length (body : Option (List Nat)) :
    (match body with
      | some b => strlen b
      | none => 0) = (body_bytes body).length := by
  cases body <;> rfl

theorem take_strlen (b : List Nat) : b.take (cstr b).length = cstr b := by
  induction b with
  | nil => rfl
  | cons c t ih =>
    by_cases hc : c = 0
    · simp [cstr_cons, hc]
    · simp only [cstr_cons, hc, if_false, List.length_cons, List.take_succ_cons, ih]

/-- What `send_response_and_close` writes when the header fits its array. -/
theorem send_response_fit (code : Int) (phrase : List Nat)
    (body : Option (List Nat))
    (hfit : (response_header code (cstr phrase) (body_bytes body).length).length ≤ 511) :
    send_response_and_close code phrase body
      = some (response_header code (cstr phrase) (body_bytes body).length
          ++ body_bytes body) := by
  unfold send_response_and_close
  simp only [body_bytes_length, printf_header]
  generalize response_header code (cstr phrase) (body_bytes body).length = text at hfit
  rw [if_pos (by omega), List.take_of_length_le hfit, List.take_left']
  · congr 2
    cases body with
    | none => rfl
    | some b =>
      simp only [body_bytes]
      split_ifs with hb
      · exact take_strlen b
      · have : (cstr b).length = 0 := by omega
        exact (List.length_eq_zero.1 this).symm
  · rfl

/-- C15 (amended): when the header text has at most 511 bytes, and so fits the
array `header`, the bytes written by `send_response_and_close` are exactly
`HTTP/1.1 <code> <phrase>` CRLF, `Content-Length: <n>` CRLF,
`Content-Type: text/plain` CRLF, CRLF and the body, where `<n>` is the decimal
byte length of the body (`0` and no body bytes for an empty or null body). -/
theorem send_response_and_close_bytes (code : Int) (phrase : List Nat)
    (body : Option (List Nat))
    (hfit : (response_header code (cstr phrase) (body_bytes body).length).length ≤ 511) :
    send_response_and_close code phrase body
      = some (response_header code (cstr phrase) (body_bytes body).length
          ++ body_bytes body) :=
  send_response_fit code phrase body hfit

/-- Witness of C15 (amended): the response with status 200, phrase `OK` and
body `12`. -/
theorem send_response_and_close_bytes_witness :
    response_header 200 (cstr (bytes "OK")) (body_bytes (some (bytes "12"))).length
        ++ body_bytes (some (bytes "12"))
      = bytes "HTTP/1.1 200 OK\r\nContent-Length: 2\r\nContent-Type: text/plain\r\n\r\n12"
    ∧ send_response_and_close 200 (bytes "OK") (some (bytes "12"))
      = some (response_header 200 (cstr (bytes "OK")) (body_bytes (some (bytes "12"))).length
          ++ body_bytes (some (bytes "12"))) :=
  ⟨by decide, send_response_and_close_bytes 200 (bytes "OK") (some (bytes "12")) (by decide)⟩

set_option maxRecDepth 1000000 in
/-- Counterexample to C15 as stated: with a status phrase of 500 characters
the header text has 562 bytes, more than the array `header` holds, and what
`write` sends is not that text: the call reads past the end of the array. -/
theorem send_response_and_close_long_phrase :
    (response_header 200 (cstr long_phrase) 0).length = 562
    ∧ send_response_and_close 200 long_phrase none = none := by
  decide!

theorem response_header_length (code : Int) (phrase : List Nat) (n : Nat) :
    (response_header code phrase n).length
      = (fmt_lld code).length + phrase.length + (fmt_lld (n : Int)).length + 58 := by
  have e1 : (bytes "HTTP/1.1 ").length = 9 := by decide
  have e2 : (bytes "Content-Length: ").length = 16 := by decide
  have e3 : (bytes "Content-Type: text/plain").length = 24 := by decide
  simp only [response_header, crlf, List.length_append, List.length_cons, List.length_nil,
    e1, e2, e3]
  omega

/-- The responses of `main`: five fixed error responses, or status 200 with a
formatted result as body. -/
theorem main_handle_responses (buf : List Nat) (r : Response) (h : main_handle buf = some r) :
    r = ⟨400, bytes "Bad Request", bytes "invalid request-line"⟩
      ∨ r = ⟨405, bytes "Method Not Allowed", bytes "only GET allowed"⟩
      ∨ r = ⟨404, bytes "Not Found", bytes "expected /calc?query=..."⟩
      ∨ r = ⟨400, bytes "Bad Request", bytes "missing query parameter"⟩
      ∨ r = ⟨500, bytes "Internal Server Error", bytes "url decode failed"⟩
      ∨ r = ⟨400, bytes "Bad Request", bytes "invalid expression"⟩
      ∨ ∃ v, r = ⟨200, bytes "OK", snprintf_lld 64 v⟩ := by
  rw [main_handle_evaluate] at h
  split_ifs at h
  · simp only [Option.some.injEq] at h; exact Or.inl h.symm
  · simp only [Option.some.injEq] at h; exact Or.inr (Or.inl h.symm)
  · split at h
    · simp only [Option.some.injEq] at h; exact Or.inr (Or.inr (Or.inl h.symm))
    · split at h
      · simp only [Option.some.injEq] at h
        exact Or.inr (Or.inr (Or.inr (Or.inl h.symm)))
      · unfold main_evaluate at h
        split at h
        · simp only [Option.some.injEq] at h
          exact Or.inr (Or.inr (Or.inr (Or.inr (Or.inl h.symm))))
        · split at h
          · exact absurd h (by simp)
          · split_ifs at h
            · simp only [Option.some.injEq] at h
              exact Or.inr (Or.inr (Or.inr (Or.inr (Or.inr (Or.inl h.symm)))))
            · simp only [Option.some.injEq] at h
              exact Or.inr (Or.inr (Or.inr (Or.inr (Or.inr (Or.inr ⟨_, h.symm⟩)))))

/-- Every response of `main` has a header that fits the array `header` of
`send_response_and_close`. -/
theorem main_response_fits (buf : List Nat) (r : Response) (h : main_handle buf = some r) :
    (response_header r.status_code (cstr r.status_text)
      (body_bytes (some r.body)).length).length ≤ 511 := by
  have hbody : ∀ b : List Nat, b.length ≤ 63 →
      (fmt_lld ((body_bytes (some b)).length : Int)).length ≤ 20 := by
    intro b hb
    apply fmt_lld_length
    have : (body_bytes (some b)).length ≤ 63 := le_trans (cstr_length_le b) hb
    unfold fits64 LLONG_MIN LLONG_MAX
    omega
  have hphrase : ∀ t : List Nat, t.length ≤ 21 → (cstr t).length ≤ 21 :=
    fun t ht => le_trans (cstr_length_le t) ht
  rw [response_header_length]
  rcases main_handle_responses buf r h with h | h | h | h | h | h | ⟨v, h⟩ <;> subst h
  · have := hbody (bytes "invalid request-line") (by decide)
    have := hphrase (bytes "Bad Request") (by decide)
    have : (fmt_lld ((400 : Nat) : Int)).length = 3 := by decide
    simp only [] at *
    omega
  · have := hbody (bytes "only GET allowed") (by decide)
    have := hphrase (bytes "Method Not Allowed") (by decide)
    have : (fmt_lld ((405 : Nat) : Int)).length = 3 := by decide
    simp only [] at *
    omega
  · have := hbody (bytes "expected /calc?query=...") (by decide)
    have := hphrase (bytes "Not Found") (by decide)
    have : (fmt_lld ((404 : Nat) : Int)).length = 3 := by decide
    simp only [] at *
    omega
  · have := hbody (bytes "missing query parameter") (by decide)
    have := hphrase (bytes "Bad Request") (by decide)
    have : (fmt_lld ((400 : Nat) : Int)).length = 3 := by decide
    simp only [] at *
    omega
  · have := hbody (bytes "url decode failed") (by decide)
    have := hphrase (bytes "Internal Server Error") (by decide)
    have : (fmt_lld ((500 : Nat) : Int)).length = 3 := by decide
    simp only [] at *
    omega
  · have := hbody (bytes "invalid expression") (by decide)
    have := hphrase (bytes "Bad Request") (by decide)
    have : (fmt_lld ((400 : Nat) : Int)).length = 3 := by decide
    simp only [] at *
    omega
  · have hl : (snprintf_lld 64 v).length ≤ 63 := by
      unfold snprintf_lld
      simp only [List.length_take]
      omega
    have := hbody (snprintf_lld 64 v) hl
    have := hphrase (bytes "OK") (by decide)
    have : (fmt_lld ((200 : Nat) : Int)).length = 3 := by decide
    simp only [] at *
    omega

/-- The bytes that one round of `main` writes to the connection. -/
theorem main_response_bytes (buf : List Nat) (r : Response) (h : main_handle buf = some r) :
    send_response_and_close r.status_code r.status_text (some r.body)
      = some (response_header r.status_code (cstr r.status_text)
          (body_bytes (some r.body)).length ++ body_bytes (some r.body)) :=
  send_response_fit _ _ _ (main_response_fits buf r h)

end HttpServer
